import Mathlib

/-!
Verification development for the additive-synthesis engine in
`primid_v1_06/audio/web-audio-engine/additive-synth.js`.

The engine is single-threaded and event-driven; all state mutation is
synchronous except for `setTimeout` callbacks, which we record as pending
tasks in a task list (they never run during the synchronous call that
scheduled them).  Machine floats are modelled by exact rationals; the
acoustic-model curve functions (`window.getHarmonicEvolution`,
`window.getPianoEnvelopeDecayTimes`, brightness / noise-burst modifiers,
and the spectral-profile construction) are external collaborators of the
core per the design document, and are modelled as parameters.

Naming note: the pooled oscillator+filter+gain record is an anonymous
object literal in the source; here it is called `PartialNode`.
-/

namespace AdditiveSynth

/-- One scheduled automation event on a Web Audio `AudioParam`
(`setValueAtTime`, `linearRampToValueAtTime`, `exponentialRampToValueAtTime`). -/
inductive GainEvent
  | setValue (v : ℚ) (t : ℚ)
  | linearRamp (v : ℚ) (t : ℚ)
  | expRamp (v : ℚ) (t : ℚ)
deriving DecidableEq, Repr

/-- A gain `AudioParam`: its current `.value` and its queue of scheduled
automation events.  A `setValueAtTime` with a timestamp not in the future
updates `.value`; ramps and future set-events only enter the queue. -/
structure GainParam where
  value : ℚ
  events : List GainEvent
deriving DecidableEq, Repr

instance : Inhabited GainParam := ⟨⟨0, []⟩⟩

/-- `gain.cancelScheduledValues(t)`: the source always passes `0` or `now`,
which clears the whole queue. -/
def GainParam.cancelScheduledValues (g : GainParam) : GainParam :=
  { g with events := [] }

/-- `gain.setValueAtTime(v, t)` observed at clock time `now`. -/
def GainParam.setValueAtTime (g : GainParam) (v t now : ℚ) : GainParam :=
  if t ≤ now then { value := v, events := g.events ++ [.setValue v t] }
  else { g with events := g.events ++ [.setValue v t] }

/-- `gain.linearRampToValueAtTime(v, t)`: scheduled only, `.value` unchanged. -/
def GainParam.linearRampToValueAtTime (g : GainParam) (v t : ℚ) : GainParam :=
  { g with events := g.events ++ [.linearRamp v t] }

/-- `gain.exponentialRampToValueAtTime(v, t)`: scheduled only, `.value` unchanged. -/
def GainParam.expRampToValueAtTime (g : GainParam) (v t : ℚ) : GainParam :=
  { g with events := g.events ++ [.expRamp v t] }

/-- `gain.gain.value = v`: direct assignment. -/
def GainParam.setDirect (g : GainParam) (v : ℚ) : GainParam :=
  { g with value := v }

/-- One pooled oscillator+filter+gain chain (the anonymous record pushed by
the `PartialPool` constructor: `{osc, filter, gain, inUse, index}`). -/
structure PartialNode where
  oscFreq : ℚ
  filterFreq : ℚ
  gain : GainParam
  inUse : Bool
  index : ℕ
deriving DecidableEq, Repr

instance : Inhabited PartialNode :=
  ⟨{ oscFreq := 440, filterFreq := 20000, gain := default, inUse := false, index := 0 }⟩

/-- The fixed-capacity resource pool.  `available` is the free-list stack;
the JS array's end (where `push`/`pop` operate) is the HEAD of this list. -/
structure PartialPool where
  pool : List PartialNode
  available : List ℕ
deriving DecidableEq, Repr

/-- `new PartialPool(size, ctx)`: `size` nodes, oscillator defaults 440 Hz,
filter opened to 20 kHz, gain 0; free-list gets `0, …, size-1` pushed in
order, so index `size-1` is on top of the stack. -/
def PartialPool.init (size : ℕ) : PartialPool :=
  { pool := (List.range size).map (fun i =>
      { oscFreq := 440, filterFreq := 20000, gain := { value := 0, events := [] },
        inUse := false, index := i }),
    available := (List.range size).reverse }

/-- `PartialPool.acquire()`: `null` (here `none`) if the free-list is empty,
else pop an index, mark the node in-use and reset its gain to silence
(`cancelScheduledValues(0); value = 0`). -/
def PartialPool.acquire (p : PartialPool) : Option ℕ × PartialPool :=
  match p.available with
  | [] => (none, p)
  | idx :: rest =>
      let node := p.pool.getD idx default
      let node' := { node with inUse := true, gain := { value := 0, events := [] } }
      (some idx, { pool := p.pool.set idx node', available := rest })

/-- `PartialPool.release(partial)`, the reference modelled by its pool
position `i`: no-op on a null reference or an already-free node; otherwise
mark free, silence the gain, and push `partial.index` back on the free-list. -/
def PartialPool.release (p : PartialPool) (i : ℕ) : PartialPool :=
  match p.pool.get? i with
  | none => p
  | some node =>
      if node.inUse then
        let node' := { node with inUse := false, gain := { value := 0, events := [] } }
        { pool := p.pool.set i node', available := node.index :: p.available }
      else p

/-- Number of pool nodes currently marked in-use. -/
def PartialPool.countInUse (p : PartialPool) : ℕ :=
  (p.pool.filter (·.inUse)).length

/-- Abstract client calls against the pool, for whole-history statements. -/
inductive PoolOp
  | acquire
  | release (i : ℕ)
deriving DecidableEq, Repr

def PartialPool.runOp (p : PartialPool) : PoolOp → PartialPool
  | .acquire => (p.acquire).2
  | .release i => p.release i

def PartialPool.runOps (p : PartialPool) (ops : List PoolOp) : PartialPool :=
  ops.foldl PartialPool.runOp p

/-- The pool reached from a fresh pool of capacity `n` by a call sequence. -/
def poolAfter (n : ℕ) (ops : List PoolOp) : PartialPool :=
  (PartialPool.init n).runOps ops

/-- The node at pool position `i` (total; positions are always in range in
well-formed pools). -/
def PartialPool.nodeAt (p : PartialPool) (i : ℕ) : PartialNode :=
  p.pool.getD i default

/-- Well-formedness of a pool of capacity `n`: the free-list holds exactly
the indices of the not-in-use nodes, without duplicates, every node records
its own position, and the free/in-use counts partition the capacity. -/
def PartialPool.WF (p : PartialPool) (n : ℕ) : Prop :=
  p.pool.length = n ∧
  p.available.Nodup ∧
  (∀ i ∈ p.available, i < n) ∧
  (∀ i < n, ((p.nodeAt i).inUse = false ↔ i ∈ p.available)) ∧
  (∀ i < n, (p.nodeAt i).index = i) ∧
  p.available.length + p.countInUse = n

/-- Change the gain parameter of the node at pool position `i`
(in JS, mutation through the reference held by a voice). -/
def PartialPool.modifyGain (p : PartialPool) (i : ℕ) (f : GainParam → GainParam) : PartialPool :=
  match p.pool.get? i with
  | none => p
  | some node => { p with pool := p.pool.set i { node with gain := f node.gain } }

/-- `partial.osc.frequency.value = v` through the reference at position `i`. -/
def PartialPool.setOscFreq (p : PartialPool) (i : ℕ) (v : ℚ) : PartialPool :=
  match p.pool.get? i with
  | none => p
  | some node => { p with pool := p.pool.set i { node with oscFreq := v } }

/-- One precomputed spectral configuration (`{freq, amp, decay, harmonicNum}`)
as produced by `SpectralProfile.computeConfigsForVelocity`.  The profile
construction itself evaluates external acoustic-model curves, so configs are
inputs of the core here. -/
structure Config where
  freq : ℚ
  amp : ℚ
  decay : ℚ
  harmonicNum : ℕ
deriving DecidableEq, Repr

/-- Stable insertion of a config into an amplitude-descending list; ties keep
the earlier element first, matching the (stable) JS `sort((a,b) => b.amp - a.amp)`. -/
def insertByAmpDesc (c : Config) : List Config → List Config
  | [] => [c]
  | d :: ds => if c.amp < d.amp then d :: insertByAmpDesc c ds else c :: d :: ds

/-- Stable sort by amplitude, loudest first. -/
def sortByAmpDesc : List Config → List Config
  | [] => []
  | c :: cs => insertByAmpDesc c (sortByAmpDesc cs)

/-- `AdditiveSynth.selectPartials(configs, maxPartials)`: drop configs with
`amp ≤ 0.001` (the JS test is `amp > ampThreshold`) or `freq > 24000`, sort
the survivors by amplitude descending, keep the first `limit`.  The JS
`const limit = maxPartials || this.maxPartials` falls back to the synth field
when the argument is absent or `0`. -/
def selectPartials (defaultMaxPartials : ℕ) (configs : List Config) (limit : ℕ) : List Config :=
  let l := if limit = 0 then defaultMaxPartials else limit
  (sortByAmpDesc (configs.filter
    (fun c => decide ((1 : ℚ)/1000 < c.amp) && decide (c.freq ≤ 24000)))).take l

/-- The selection rule as the specification words it ("discard those below an
audibility threshold (e.g., amplitude < 0.001)"): a config whose amplitude
EQUALS the threshold is kept.  Written from the spec for comparison with
`selectPartials`. -/
def selectPartialsSpec (configs : List Config) (limit : ℕ) : List Config :=
  (sortByAmpDesc (configs.filter
    (fun c => !decide (c.amp < (1 : ℚ)/1000) && decide (c.freq ≤ 24000)))).take limit

/-- The selection rule amended to match the source: a config whose amplitude
is at or below the 0.001 threshold is discarded. -/
def selectPartialsAmended (configs : List Config) (limit : ℕ) : List Config :=
  (sortByAmpDesc (configs.filter
    (fun c => decide ((1 : ℚ)/1000 < c.amp) && decide (c.freq ≤ 24000)))).take limit

/-- `Math.round` (half rounds toward positive infinity). -/
def jsRound (q : ℚ) : ℤ := ⌊q + 1/2⌋

/-- The adaptive per-voice budget computed at the top of `noteOn`:
`poolUsageRatio = 1 - available/total`; above 70 % usage the budget scales
down linearly with a floor of 6, otherwise it is `this.maxPartials`. -/
def adaptiveMaxPartialsOf (maxPartials poolAvailable poolTotal : ℕ) : ℕ :=
  let poolUsageRatio : ℚ := 1 - (poolAvailable : ℚ) / (poolTotal : ℚ)
  if 7/10 < poolUsageRatio then
    (max 6 (jsRound ((maxPartials : ℚ) * (1 - (poolUsageRatio - 7/10) / (3/10))))).toNat
  else maxPartials

/-- One entry of a voice's `initialAmplitudes` array. -/
structure InitAmp where
  harmonicNum : ℕ
  initialAmp : ℚ
deriving DecidableEq, Repr

instance : Inhabited InitAmp := ⟨⟨0, 0⟩⟩

/-- One active note, the value stored in `this.activeNotes` keyed by note id.
`partials` holds pool positions (JS holds references into the pool). -/
structure Voice where
  partials : List ℕ
  gainNode : GainParam
  frequency : ℚ
  velocity : ℕ
  startTime : ℚ
  keyDown : Bool
  pedalDown : Bool
  initialAmplitudes : List InitAmp
  lastUpdateTime : ℚ
deriving DecidableEq, Repr

/-- A `setTimeout` callback recorded, not executed: deferred work never runs
during the synchronous call that scheduled it. -/
inductive STask
  | cleanup (id : ℕ)
  | cleanupCheck (id : ℕ)
  | releaseNode (idx : ℕ)
deriving DecidableEq, Repr

/-- Does this task belong to the pending-cleanup timeout of note `id`? -/
def STask.isCleanupFor (t : STask) (id : ℕ) : Bool :=
  match t with
  | .cleanup j => j == id
  | .cleanupCheck j => j == id
  | .releaseNode _ => false

/-- The mutable state of one `AdditiveSynth` instance.  `activeNotes` is a
JS `Map` (insertion-ordered association list); `tasks` holds scheduled
`setTimeout` callbacks as (delay in seconds, action); `now` is
`audioCtx.currentTime`. -/
structure SynthState where
  pool : PartialPool
  activeNotes : List (ℕ × Voice)
  pendingCleanups : List ℕ
  tasks : List (ℚ × STask)
  maxPartials : ℕ
  now : ℚ
deriving DecidableEq, Repr

/-- `Map.get`. -/
def mapGet (m : List (ℕ × Voice)) (k : ℕ) : Option Voice :=
  (m.find? (fun e => e.1 == k)).map (·.2)

/-- `Map.set`: replace in place if the key exists (keeping its position),
otherwise append. -/
def mapSet (m : List (ℕ × Voice)) (k : ℕ) (v : Voice) : List (ℕ × Voice) :=
  if m.any (fun e => e.1 == k) then m.map (fun e => if e.1 == k then (k, v) else e)
  else m ++ [(k, v)]

/-- `Map.delete`. -/
def mapErase (m : List (ℕ × Voice)) (k : ℕ) : List (ℕ × Voice) :=
  m.filter (fun e => !(e.1 == k))

/-- The current `.value` of the gain of the pool node at position `i`. -/
def SynthState.nodeGainValue (s : SynthState) (i : ℕ) : ℚ :=
  ((s.pool.pool.get? i).map (fun n => n.gain.value)).getD 0

def SynthState.modifyGain (s : SynthState) (i : ℕ) (f : GainParam → GainParam) : SynthState :=
  { s with pool := s.pool.modifyGain i f }

/-- Mutate the per-note master gain node of note `id`. -/
def updateVoiceGainNode (s : SynthState) (id : ℕ) (f : GainParam → GainParam) : SynthState :=
  let notes := s.activeNotes.map
    (fun e => if e.1 == id then (e.1, { e.2 with gainNode := f e.2.gainNode }) else e)
  { s with activeNotes := notes }

/-- `clearTimeout(this.pendingCleanups.get(noteId)); this.pendingCleanups.delete(noteId)` —
drop the pending cleanup timeout of `id`, if any. -/
def SynthState.cancelPending (s : SynthState) (id : ℕ) : SynthState :=
  if s.pendingCleanups.contains id then
    { s with pendingCleanups := s.pendingCleanups.filter (fun j => !(j == id)),
             tasks := s.tasks.filter (fun t => !(t.2.isCleanupFor id)) }
  else s

/-- `this.partialPool.acquire()` lifted to the synth state. -/
def SynthState.poolAcquire (s : SynthState) : Option ℕ × SynthState :=
  match s.pool.acquire with
  | (r, p) => (r, { s with pool := p })

/-- `AdditiveSynth.applyEnvelope(gainNode, velocity, decayTime, startTime)`. -/
def applyEnvelope (g : GainParam) (velocity : ℕ) (decayTime startTime : ℚ) : GainParam :=
  let normalizedVel : ℚ := max (1/1000) ((velocity : ℚ) / 127)
  let attackTime : ℚ := 1/100 + (1/50) * (1 - normalizedVel)
  let sustainLevel : ℚ := max (1/1000) (3/10 + normalizedVel * (1/5))
  let now := startTime
  let velocityScale := normalizedVel ^ 2
  let attackStart : ℚ := 1/1000
  let attackTarget := max (1/1000) velocityScale
  let sustainTarget := max (1/1000) (sustainLevel * velocityScale)
  ((((g.cancelScheduledValues).setValueAtTime attackStart now now
      ).expRampToValueAtTime attackTarget (now + attackTime)
      ).expRampToValueAtTime sustainTarget (now + attackTime + decayTime)
      ).setValueAtTime sustainTarget (now + attackTime + decayTime) now

/-- The release envelope applied by `noteOff` to one gain parameter:
cancel pending automation, anchor `anchor` at `now`, then ramp to 0.001 over
`safe` seconds — linear when `safe < 0.15` (to avoid clicks on very short
releases), exponential otherwise. -/
def releaseRampGain (safe now anchor : ℚ) (g : GainParam) : GainParam :=
  let g1 := (g.cancelScheduledValues).setValueAtTime anchor now now
  if safe < 3/20 then g1.linearRampToValueAtTime (1/1000) (now + safe)
  else g1.expRampToValueAtTime (1/1000) (now + safe)

/-- The gain parameter produced by `releaseRampGain` (whatever the previous
event queue was): value anchored at `anchor`, queue holding the anchor event
and the single release ramp. -/
def rampedGain (safe now anchor : ℚ) : GainParam :=
  { value := anchor,
    events := [GainEvent.setValue anchor now,
      if safe < 3/20 then GainEvent.linearRamp (1/1000) (now + safe)
      else GainEvent.expRamp (1/1000) (now + safe)] }

/-- The `note.partials.forEach` body of `noteOff`: read the partial's current
gain and apply the release ramp anchored at it. -/
def noteOffRampStep (now safeReleaseTime : ℚ) (st : SynthState) (idx : ℕ) : SynthState :=
  st.modifyGain idx (releaseRampGain safeReleaseTime now (st.nodeGainValue idx))

/-- The `note.partials.forEach` body of `cleanupNote`: a 10 ms anti-click
ramp-down when the gain is still above 0.001 (else set to 0), and a 15 ms
deferred task performing the actual `partialPool.release`. -/
def cleanupRampStep (now : ℚ) (st : SynthState) (idx : ℕ) : SynthState :=
  let cur := st.nodeGainValue idx
  let st' := st.modifyGain idx (fun g =>
    if (1 : ℚ)/1000 < cur then
      ((g.cancelScheduledValues).setValueAtTime cur now now
        ).expRampToValueAtTime (1/1000) (now + 1/100)
    else
      (g.cancelScheduledValues).setValueAtTime 0 now now)
  { st' with tasks := st'.tasks ++ [(15/1000, STask.releaseNode idx)] }

/-- The found-note branch of `cleanupNote`. -/
def cleanupNoteBody (s : SynthState) (id : ℕ) (note : Voice) : SynthState :=
  let s1 := s.cancelPending id
  let s2 := note.partials.foldl (cleanupRampStep s1.now) s1
  { s2 with activeNotes := mapErase s2.activeNotes id }

/-- `AdditiveSynth.cleanupNote(noteId)`: cancel the pending timeout, ramp each
partial's gain down, schedule the actual pool release of each partial 15 ms
out, and drop the voice.  The pool's free-list is NOT touched synchronously. -/
def cleanupNote (s : SynthState) (id : ℕ) : SynthState :=
  match mapGet s.activeNotes id with
  | none => s
  | some note => cleanupNoteBody s id note

/-- The state reached by `noteOff` just before its cleanup decision: pending
timeout cancelled, release ramps applied to every partial of the voice, and —
when sustain decay had already pulled the per-note master gain below 0.99 —
the same release ramp applied to the master gain node. -/
def noteOffS3 (s : SynthState) (id : ℕ) (releaseTime : ℚ) (note : Voice) : SynthState :=
  let s1 := s.cancelPending id
  let safeReleaseTime := max (1/10) releaseTime
  let s2 := note.partials.foldl (noteOffRampStep s1.now safeReleaseTime) s1
  if note.gainNode.value < 99/100 then
    updateVoiceGainNode s2 id (releaseRampGain safeReleaseTime s1.now note.gainNode.value)
  else s2

/-- The found-note branch of `noteOff`. -/
def noteOffBody (s : SynthState) (id : ℕ) (releaseTime : ℚ) (immediateCleanup : Bool)
    (note : Voice) : SynthState :=
  let s3 := noteOffS3 s id releaseTime note
  if immediateCleanup then cleanupNote s3 id
  else { s3 with tasks := s3.tasks ++ [(releaseTime + 1/10, STask.cleanup id)],
                 pendingCleanups := s3.pendingCleanups ++ [id] }

/-- `AdditiveSynth.noteOff(noteId, releaseTime, immediateCleanup)`: unknown
ids are a no-op. -/
def noteOff (s : SynthState) (id : ℕ) (releaseTime : ℚ) (immediateCleanup : Bool) : SynthState :=
  match mapGet s.activeNotes id with
  | none => s
  | some note => noteOffBody s id releaseTime immediateCleanup note

/-- The steal score of a candidate: `effectiveVolume / (1 + age * 0.1)` with
`effectiveVolume = masterGain * average partial gain`. -/
def stealScoreOf (s : SynthState) (note : Voice) : ℚ :=
  let masterGain := note.gainNode.value
  let avgPartialGain :=
    (note.partials.map (fun i => s.nodeGainValue i)).sum / (note.partials.length : ℚ)
  let effectiveVolume := masterGain * avgPartialGain
  let age := s.now - note.startTime
  effectiveVolume / (1 + age * (1/10))

/-- One step of the candidate scan: consider only `!keyDown` voices with at
least one partial, keep the strictly-lowest score so far (the JS starting
best is `Infinity`, modelled by `none`, so the first eligible always wins). -/
def stealFoldStep (s : SynthState) : Option (ℕ × ℚ) → ℕ × Voice → Option (ℕ × ℚ)
  | none, e =>
      if !e.2.keyDown && decide (0 < e.2.partials.length) then
        some (e.1, stealScoreOf s e.2)
      else none
  | some (j, b), e =>
      if !e.2.keyDown && decide (0 < e.2.partials.length) then
        (if stealScoreOf s e.2 < b then some (e.1, stealScoreOf s e.2) else some (j, b))
      else some (j, b)

/-- `AdditiveSynth.stealVoiceFromQuietestSustainedNote()`: scan the active
notes for the lowest-scoring pedal-sustained voice, then give the chosen note
a 50 ms forced release with `noteOff(id, 0.05, false)` — cleanup deferred,
NOT immediate. -/
def stealVoiceFromQuietestSustainedNote (s : SynthState) : Option ℕ × SynthState :=
  match s.activeNotes.foldl (stealFoldStep s) none with
  | none => (none, s)
  | some (id, _) => (some id, noteOff s id (1/20) false)

/-- Accumulator of `noteOn`'s acquisition loop. -/
structure AcqAcc where
  state : SynthState
  partials : List ℕ
  initialAmplitudes : List InitAmp
deriving Repr

/-- Configure a freshly acquired node for config `c`: set the oscillator
frequency, record the initial amplitude, apply the attack/decay envelope
(the audio-graph connections carry no state we track). -/
def configureAcquired (acc : AcqAcc) (idx : ℕ) (c : Config) (velocity : ℕ) (now : ℚ) : AcqAcc :=
  let st1 := { acc.state with pool := acc.state.pool.setOscFreq idx c.freq }
  let st2 := st1.modifyGain idx (fun g => applyEnvelope g velocity c.decay now)
  { state := st2,
    partials := acc.partials ++ [idx],
    initialAmplitudes := acc.initialAmplitudes ++
      [{ harmonicNum := c.harmonicNum, initialAmp := c.amp }] }

/-- The `for (const config of partialConfigs)` loop of `noteOn`: skip configs
above 24 kHz; on pool exhaustion try voice stealing once and retry the
acquisition; `break` (stop acquiring) if the retry fails or no note could be
stolen. -/
def acquireLoop (velocity : ℕ) (now : ℚ) : List Config → AcqAcc → AcqAcc
  | [], acc => acc
  | c :: cs, acc =>
    if (24000 : ℚ) < c.freq then acquireLoop velocity now cs acc
    else
      match acc.state.poolAcquire with
      | (some idx, st') =>
          acquireLoop velocity now cs (configureAcquired { acc with state := st' } idx c velocity now)
      | (none, _) =>
          let r := stealVoiceFromQuietestSustainedNote acc.state
          match r.1 with
          | some _ =>
              match r.2.poolAcquire with
              | (some idx, st2) =>
                  acquireLoop velocity now cs
                    (configureAcquired { acc with state := st2 } idx c velocity now)
              | (none, st2) => { acc with state := st2 }
          | none => { acc with state := r.2 }

/-- `AdditiveSynth.noteOn(noteId, frequency, velocity, keyDown, pedalDown)`.
The spectral profile lookup (`getSpectralProfile(frequency).getConfigs(velocity)`)
evaluates the external acoustic model, so the resulting `configs` list is a
parameter.  Returns the new state and the per-note gain node handle. -/
def noteOn (s : SynthState) (noteId : ℕ) (frequency : ℚ) (velocity : ℕ)
    (keyDown pedalDown : Bool) (configs : List Config) : SynthState × GainParam :=
  let poolAvailable := s.pool.available.length
  let poolTotal := s.pool.pool.length
  let adaptiveMaxPartials := adaptiveMaxPartialsOf s.maxPartials poolAvailable poolTotal
  let partialConfigs := selectPartials s.maxPartials configs adaptiveMaxPartials
  let noteGain : GainParam := { value := 1, events := [] }
  let now := s.now
  let acc := acquireLoop velocity now partialConfigs
    { state := s, partials := [], initialAmplitudes := [] }
  let voice : Voice :=
    { partials := acc.partials, gainNode := noteGain, frequency := frequency,
      velocity := velocity, startTime := now, keyDown := keyDown, pedalDown := pedalDown,
      initialAmplitudes := acc.initialAmplitudes, lastUpdateTime := now }
  ({ acc.state with activeNotes := mapSet acc.state.activeNotes noteId voice }, noteGain)

/-- `AdditiveSynth.getActiveNoteCount()`. -/
def getActiveNoteCount (s : SynthState) : ℕ := s.activeNotes.length

/-- `AdditiveSynth.getActivePartialCount()`. -/
def getActivePartialCount (s : SynthState) : ℕ :=
  (s.activeNotes.map (fun e => e.2.partials.length)).sum

/-- The external acoustic-model callbacks consumed by the Harmonic Evolution
Scheduler (`getPianoEnvelopeDecayTimes` / `getHarmonicEvolution` composed into
`rate`, plus the time-varying brightness and noise-burst multipliers). -/
structure EvoModel where
  rate : ℚ → ℚ → ℕ → Bool → Bool → ℕ → ℚ
  brightness : ℕ → ℕ → ℚ → ℚ
  noise : ℕ → ℕ → ℚ → ℚ

/-- The target amplitude for one partial on a scheduler tick:
`initialAmp * decayRate * brightness * noiseBurst`, where the JS
`harmonicRates[harmonicNum] || 1.0` turns a missing-or-zero rate into 1. -/
def evoTargetAmp (m : EvoModel) (sustainPedal : Bool) (elapsed : ℚ) (note : Voice)
    (info : InitAmp) : ℚ :=
  let r := m.rate elapsed note.frequency note.velocity (note.pedalDown || sustainPedal)
    note.keyDown info.harmonicNum
  let decayRate := if r = 0 then 1 else r
  info.initialAmp * decayRate * m.brightness info.harmonicNum note.velocity elapsed
    * m.noise info.harmonicNum note.velocity elapsed

/-- The target clamped to the exponential-ramp floor `minAmp = 0.0001`. -/
def evoClampedAmp (m : EvoModel) (sustainPedal : Bool) (elapsed : ℚ) (note : Voice)
    (info : InitAmp) : ℚ :=
  max (1/10000) (evoTargetAmp m sustainPedal elapsed note info)

/-- `Math.abs(currentValue - clampedAmp) / Math.max(currentValue, minAmp)`. -/
def evoChangeRatio (cur clamped : ℚ) : ℚ :=
  |cur - clamped| / max cur (1/10000)

/-- The per-partial body of the tick (`note.partials.forEach((partial, index) => …)`):
skip when the voice has no `initialAmplitudes` entry for this position;
otherwise issue a cancel + anchor + 200 ms exponential ramp only when the
relative change exceeds the 5 % hysteresis threshold. -/
def evoPartialStep (m : EvoModel) (sustainPedal : Bool) (now elapsed : ℚ) (note : Voice)
    (pool : PartialPool) (ip : ℕ × ℕ) : PartialPool :=
  if note.initialAmplitudes.length ≤ ip.1 then pool
  else
    let info := note.initialAmplitudes.getD ip.1 default
    let clampedAmp := evoClampedAmp m sustainPedal elapsed note info
    match pool.pool.get? ip.2 with
    | none => pool
    | some node =>
      let currentValue := node.gain.value
      if (1 : ℚ)/20 < evoChangeRatio currentValue clampedAmp then
        pool.modifyGain ip.2 (fun g =>
          ((g.cancelScheduledValues).setValueAtTime (max (1/10000) currentValue) now now
            ).expRampToValueAtTime clampedAmp (now + 1/5))
      else pool

/-- The node produced when the scheduler does issue a ramp: pending events
cancelled, value anchored at `max(minAmp, current)` at `now`, and a single
exponential ramp to the clamped target over the 200 ms horizon. -/
def evoRampedNode (m : EvoModel) (sustainPedal : Bool) (elapsed now : ℚ) (note : Voice)
    (i : ℕ) (node : PartialNode) : PartialNode :=
  { node with gain :=
    { value := max (1/10000) node.gain.value,
      events := [GainEvent.setValue (max (1/10000) node.gain.value) now,
        GainEvent.expRamp
          (evoClampedAmp m sustainPedal elapsed note (note.initialAmplitudes.getD i default))
          (now + 1/5)] } }

/-- Accumulator of the per-tick loop over `this.activeNotes`. -/
structure EvoAcc where
  pool : PartialPool
  notes : List (ℕ × Voice)
  pendingCleanups : List ℕ
  tasks : List (ℚ × STask)
deriving Repr

/-- One note's share of a scheduler tick: update every partial, then run the
silence check (`Math.max(...)` of an empty gain list is `-Infinity`, so the
`< 0.0005` comparison is a `List.all`), scheduling a deferred 200 ms
re-verify cleanup when the voice is silent, older than 0.5 s, and has no
pending cleanup; finally stamp `lastUpdateTime`. -/
def evoNoteStep (m : EvoModel) (sustainPedal : Bool) (now : ℚ) (acc : EvoAcc)
    (e : ℕ × Voice) : EvoAcc :=
  let elapsed := now - e.2.startTime
  let pool' := (e.2.partials.enum).foldl (evoPartialStep m sustainPedal now elapsed e.2) acc.pool
  let gains := e.2.partials.map (fun i => (((pool'.pool.get? i).map (fun n => n.gain.value)).getD 0))
  let silent := gains.all (fun g => decide (g < (1 : ℚ)/2000))
  let acc1 := { acc with pool := pool' }
  let acc2 :=
    if silent && decide ((1 : ℚ)/2 < elapsed) && !(acc1.pendingCleanups.contains e.1) then
      { acc1 with pendingCleanups := acc1.pendingCleanups ++ [e.1],
                  tasks := acc1.tasks ++ [(1/5, STask.cleanupCheck e.1)] }
    else acc1
  { acc2 with notes := acc2.notes ++ [(e.1, { e.2 with lastUpdateTime := now })] }

/-- `AdditiveSynth.updateHarmonicEvolution()`, one 200 ms tick of the
Harmonic Evolution Scheduler. -/
def updateHarmonicEvolution (m : EvoModel) (sustainPedal : Bool) (s : SynthState) : SynthState :=
  let acc := s.activeNotes.foldl (evoNoteStep m sustainPedal s.now)
    { pool := s.pool, notes := [], pendingCleanups := s.pendingCleanups, tasks := s.tasks }
  { s with pool := acc.pool, activeNotes := acc.notes,
           pendingCleanups := acc.pendingCleanups, tasks := acc.tasks }

/-- A fresh synth instance with the given pool capacity (128 in the source)
and the constructor's `maxPartials = 12`, at clock time 0. -/
def freshSynth (capacity : ℕ) : SynthState :=
  { pool := PartialPool.init capacity, activeNotes := [], pendingCleanups := [],
    tasks := [], maxPartials := 12, now := 0 }

/-- The at-most-one-owner invariant: the partial lists of distinct active
voices are pairwise disjoint. -/
def DisjointOwners (notes : List (ℕ × Voice)) : Prop :=
  notes.Pairwise (fun a b => ∀ x ∈ a.2.partials, x ∉ b.2.partials)

/-! Concrete fixtures used by the scenario theorems and witnesses below. -/

/-- A loud fundamental config. -/
def cfgA : Config := { freq := 440, amp := 1/2, decay := 3/10, harmonicNum := 1 }

/-- A quieter second-harmonic config. -/
def cfgB : Config := { freq := 880, amp := 1/4, decay := 3/10, harmonicNum := 2 }

/-- A config whose amplitude sits exactly on the 0.001 audibility threshold. -/
def cfgThreshold : Config := { freq := 440, amp := 1/1000, decay := 3/10, harmonicNum := 1 }

/-- A capacity-4 pool with every node in use at gain 0.1 (free-list empty). -/
def busyPool4 : PartialPool :=
  { pool := (List.range 4).map (fun i =>
      { oscFreq := 440, filterFreq := 20000, gain := { value := 1/10, events := [] },
        inUse := true, index := i }),
    available := [] }

/-- A pedal-sustained voice (key up) holding pool nodes 3 and 2. -/
def c3VoiceA : Voice :=
  { partials := [3, 2], gainNode := { value := 1, events := [] }, frequency := 440,
    velocity := 100, startTime := 0, keyDown := false, pedalDown := true,
    initialAmplitudes := [⟨1, 1/2⟩, ⟨2, 1/4⟩], lastUpdateTime := 0 }

/-- A younger pedal-sustained voice holding pool nodes 1 and 0. -/
def c3VoiceB : Voice :=
  { c3VoiceA with partials := [1, 0], startTime := 1 }

/-- The exhaustion scenario of spec example 2: capacity 4, two pedal-sustained
voices holding 2 partials each, at clock time 2. -/
def c3State : SynthState :=
  { pool := busyPool4, activeNotes := [(10, c3VoiceA), (11, c3VoiceB)],
    pendingCleanups := [], tasks := [], maxPartials := 12, now := 2 }

/-- A capacity-2 pool, both nodes in use at small gains. -/
def c8Pool : PartialPool :=
  { pool := [ { oscFreq := 440, filterFreq := 20000,
                gain := { value := 1/100, events := [] }, inUse := true, index := 0 },
              { oscFreq := 880, filterFreq := 20000,
                gain := { value := 1/50, events := [] }, inUse := true, index := 1 } ],
    available := [] }

/-- One active voice owning both nodes of `c8Pool`, at clock time 3. -/
def c8State : SynthState :=
  { pool := c8Pool,
    activeNotes := [(1, { c3VoiceA with partials := [1, 0] })],
    pendingCleanups := [], tasks := [], maxPartials := 12, now := 3 }

/-- An acoustic model whose decay/brightness/noise curves are identically 1
(target amplitude = initial amplitude). -/
def constModel : EvoModel :=
  { rate := fun _ _ _ _ _ _ => 1, brightness := fun _ _ _ => 1, noise := fun _ _ _ => 1 }

/-- A single held voice owning pool node 0 at gain 0.1. -/
def c9Voice : Voice :=
  { partials := [0], gainNode := { value := 1, events := [] }, frequency := 440,
    velocity := 100, startTime := 0, keyDown := true, pedalDown := false,
    initialAmplitudes := [⟨1, 1/10⟩], lastUpdateTime := 0 }

/-- One-voice state for the hysteresis witness, at clock time 1. -/
def c9State : SynthState :=
  { pool := { pool := [ { oscFreq := 440, filterFreq := 20000,
                          gain := { value := 1/10, events := [] }, inUse := true, index := 0 } ],
              available := [] },
    activeNotes := [(1, c9Voice)], pendingCleanups := [], tasks := [],
    maxPartials := 12, now := 1 }

/-- Exhausted one-node pool whose only voice is physically held: no steal
candidate exists. -/
def c10State : SynthState :=
  { pool := { pool := [ { oscFreq := 440, filterFreq := 20000,
                          gain := { value := 1/10, events := [] }, inUse := true, index := 0 } ],
              available := [] },
    activeNotes := [(1, { c9Voice with keyDown := true })], pendingCleanups := [],
    tasks := [], maxPartials := 12, now := 0 }

/-! ### Pool invariant lemmas -/

theorem getD_set_self (l : List PartialNode) (i : ℕ) (x : PartialNode) (h : i < l.length) :
    (l.set i x).getD i default = x := by
  simp [List.getD_eq_getElem?_getD, List.getElem?_set_self, h]

theorem getD_set_ne (l : List PartialNode) (i j : ℕ) (x : PartialNode) (h : i ≠ j) :
    (l.set i x).getD j default = l.getD j default := by
  simp [List.getD_eq_getElem?_getD, List.getElem?_set_ne h]

theorem length_filter_set_mark (l : List PartialNode) (i : ℕ) (x : PartialNode)
    (h : i < l.length) (hold : (l.getD i default).inUse = false) (hnew : x.inUse = true) :
    ((l.set i x).filter (·.inUse)).length = (l.filter (·.inUse)).length + 1 := by
  induction l generalizing i with
  | nil => simp at h
  | cons a as ih =>
    cases i with
    | zero =>
      have ha : a.inUse = false := by simpa using hold
      simp [List.filter_cons, ha, hnew]
    | succ i =>
      have h' : i < as.length := by simpa using h
      have hold' : (as.getD i default).inUse = false := by simpa using hold
      by_cases ha : a.inUse <;> simp [List.filter_cons, ha, ih i h' hold']

theorem length_filter_set_unmark (l : List PartialNode) (i : ℕ) (x : PartialNode)
    (h : i < l.length) (hold : (l.getD i default).inUse = true) (hnew : x.inUse = false) :
    (l.filter (·.inUse)).length = ((l.set i x).filter (·.inUse)).length + 1 := by
  induction l generalizing i with
  | nil => simp at h
  | cons a as ih =>
    cases i with
    | zero =>
      have ha : a.inUse = true := by simpa using hold
      simp [List.filter_cons, ha, hnew]
    | succ i =>
      have h' : i < as.length := by simpa using h
      have hold' : (as.getD i default).inUse = true := by simpa using hold
      by_cases ha : a.inUse <;> simp [List.filter_cons, ha, ih i h' hold']

theorem WF_init (n : ℕ) : (PartialPool.init n).WF n := by
  refine ⟨by simp [PartialPool.init], by simp [PartialPool.init, List.nodup_range], ?_, ?_, ?_, ?_⟩
  · intro i hi
    simpa [PartialPool.init] using hi
  · intro i hi
    simp [PartialPool.nodeAt, PartialPool.init, List.getD_eq_getElem?_getD,
      List.getElem?_map, List.getElem?_range, hi]
  · intro i hi
    simp [PartialPool.nodeAt, PartialPool.init, List.getD_eq_getElem?_getD,
      List.getElem?_map, List.getElem?_range, hi]
  · simp [PartialPool.init, PartialPool.countInUse, List.filter_map, Function.comp]

theorem nodeAt_set_self (p : PartialPool) (av : List ℕ) (i : ℕ) (x : PartialNode)
    (h : i < p.pool.length) :
    PartialPool.nodeAt ⟨p.pool.set i x, av⟩ i = x :=
  getD_set_self _ _ _ h

theorem nodeAt_set_ne (p : PartialPool) (av : List ℕ) (i j : ℕ) (x : PartialNode)
    (h : i ≠ j) :
    PartialPool.nodeAt ⟨p.pool.set i x, av⟩ j = p.nodeAt j :=
  getD_set_ne _ _ _ _ h

theorem acquire_nil {p : PartialPool} (hav : p.available = []) :
    p.acquire = (none, p) := by
  simp only [PartialPool.acquire, hav]

theorem acquire_cons {p : PartialPool} {idx : ℕ} {rest : List ℕ}
    (hav : p.available = idx :: rest) :
    p.acquire = (some idx,
      ⟨p.pool.set idx
        { oscFreq := (p.pool.getD idx default).oscFreq,
          filterFreq := (p.pool.getD idx default).filterFreq,
          gain := { value := 0, events := [] }, inUse := true,
          index := (p.pool.getD idx default).index },
        rest⟩) := by
  simp only [PartialPool.acquire, hav]

theorem release_none {p : PartialPool} {i : ℕ} (hget : p.pool.get? i = none) :
    p.release i = p := by
  simp only [PartialPool.release, hget]

theorem release_free {p : PartialPool} {i : ℕ} {node : PartialNode}
    (hget : p.pool.get? i = some node) (hu : node.inUse = false) :
    p.release i = p := by
  simp only [PartialPool.release, hget, hu]
  simp

theorem release_used {p : PartialPool} {i : ℕ} {node : PartialNode}
    (hget : p.pool.get? i = some node) (hu : node.inUse = true) :
    p.release i =
      ⟨p.pool.set i
        { oscFreq := node.oscFreq, filterFreq := node.filterFreq,
          gain := { value := 0, events := [] }, inUse := false, index := node.index },
        node.index :: p.available⟩ := by
  simp only [PartialPool.release, hget, hu, if_true]

theorem WF_acquire {p : PartialPool} {n : ℕ} (h : p.WF n) : ((p.acquire).2).WF n := by
  obtain ⟨hlen, hnd, hbound, hiff, hidx, hcount⟩ := h
  cases hav : p.available with
  | nil =>
    rw [acquire_nil hav]
    exact ⟨hlen, hnd, hbound, hiff, hidx, hcount⟩
  | cons idx rest =>
    have hmem : idx ∈ p.available := by rw [hav]; exact List.mem_cons_self idx rest
    have hidx_lt : idx < n := hbound idx hmem
    have hidx_len : idx < p.pool.length := by omega
    have hfree : (p.nodeAt idx).inUse = false := (hiff idx hidx_lt).2 hmem
    have hnodup' : idx ∉ rest ∧ rest.Nodup := by
      rw [hav] at hnd; exact List.nodup_cons.mp hnd
    rw [acquire_cons hav]
    refine ⟨by simpa using hlen, hnodup'.2, ?_, ?_, ?_, ?_⟩
    · intro i hi
      exact hbound i (by rw [hav]; exact List.mem_cons_of_mem idx hi)
    · intro i hi
      by_cases hii : i = idx
      · subst hii
        rw [nodeAt_set_self p rest i _ hidx_len]
        simp only [Bool.true_eq_false, false_iff]
        exact hnodup'.1
      · rw [nodeAt_set_ne p rest idx i _ (fun hc => hii hc.symm), hiff i hi, hav]
        simp [List.mem_cons, hii]
    · intro i hi
      by_cases hii : i = idx
      · subst hii
        rw [nodeAt_set_self p rest i _ hidx_len]
        exact hidx i hi
      · rw [nodeAt_set_ne p rest idx i _ (fun hc => hii hc.symm)]
        exact hidx i hi
    · have hswap := length_filter_set_mark p.pool idx
        { oscFreq := (p.pool.getD idx default).oscFreq,
          filterFreq := (p.pool.getD idx default).filterFreq,
          gain := { value := 0, events := [] }, inUse := true,
          index := (p.pool.getD idx default).index }
        hidx_len hfree rfl
      have hlen_av : p.available.length = rest.length + 1 := by rw [hav]; rfl
      simp only [PartialPool.countInUse] at hcount ⊢
      omega

theorem WF_release {p : PartialPool} {n : ℕ} (i : ℕ) (h : p.WF n) : (p.release i).WF n := by
  obtain ⟨hlen, hnd, hbound, hiff, hidx, hcount⟩ := h
  cases hget : p.pool.get? i with
  | none =>
    rw [release_none hget]
    exact ⟨hlen, hnd, hbound, hiff, hidx, hcount⟩
  | some node =>
    have hi_len : i < p.pool.length := by
      by_contra hc
      push_neg at hc
      rw [List.get?_eq_none.mpr hc] at hget
      exact absurd hget (by simp)
    have hi_n : i < n := by omega
    have hnodeAt : p.nodeAt i = node := by
      simp [PartialPool.nodeAt, List.getD_eq_getElem?_getD, ← List.get?_eq_getElem?, hget]
    by_cases hu : node.inUse
    · have hnode_idx : node.index = i := by rw [← hnodeAt]; exact hidx i hi_n
      have hnotmem : i ∉ p.available := by
        intro hm
        have := (hiff i hi_n).2 hm
        rw [hnodeAt] at this
        rw [hu] at this
        exact absurd this (by simp)
      rw [release_used hget hu]
      refine ⟨by simpa using hlen, ?_, ?_, ?_, ?_, ?_⟩
      · rw [hnode_idx]
        exact List.nodup_cons.mpr ⟨hnotmem, hnd⟩
      · intro j hj
        rcases List.mem_cons.mp hj with hj | hj
        · rw [hj, hnode_idx]; omega
        · exact hbound j hj
      · intro j hj
        by_cases hji : j = i
        · subst hji
          rw [nodeAt_set_self p (node.index :: p.available) j _ hi_len, hnode_idx]
          simp
        · rw [nodeAt_set_ne p (node.index :: p.available) i j _ (fun hc => hji hc.symm),
            hiff j hj, hnode_idx]
          simp [List.mem_cons, hji]
      · intro j hj
        by_cases hji : j = i
        · subst hji
          rw [nodeAt_set_self p (node.index :: p.available) j _ hi_len]
          exact hnode_idx
        · rw [nodeAt_set_ne p (node.index :: p.available) i j _ (fun hc => hji hc.symm)]
          exact hidx j hj
      · have hold : (p.pool.getD i default).inUse = true := by
          have h1 : p.pool.getD i default = node := hnodeAt
          rw [h1, hu]
        have hswap := length_filter_set_unmark p.pool i
          { oscFreq := node.oscFreq, filterFreq := node.filterFreq,
            gain := { value := 0, events := [] }, inUse := false, index := node.index }
          hi_len hold rfl
        simp only [PartialPool.countInUse] at hcount ⊢
        simp only [List.length_cons]
        omega
    · rw [release_free hget (by simpa using hu)]
      exact ⟨hlen, hnd, hbound, hiff, hidx, hcount⟩

theorem WF_runOp {p : PartialPool} {n : ℕ} (op : PoolOp) (h : p.WF n) : (p.runOp op).WF n := by
  cases op with
  | acquire => exact WF_acquire h
  | release i => exact WF_release i h

theorem WF_runOps {p : PartialPool} {n : ℕ} (ops : List PoolOp) (h : p.WF n) :
    (p.runOps ops).WF n := by
  induction ops generalizing p with
  | nil => exact h
  | cons op ops ih => exact ih (WF_runOp op h)

theorem WF_poolAfter (n : ℕ) (ops : List PoolOp) : (poolAfter n ops).WF n :=
  WF_runOps ops (WF_init n)

/-! ### Claims about the Partial Resource Pool -/

/-- Claim C1: for every sequence of acquire and release calls on the Partial
Resource Pool starting from a freshly initialized pool of fixed capacity `n`,
after each operation the number of free partials plus the number of in-use
partials equals `n`, and no partial is created or destroyed after
initialization — the pool still holds exactly `n` nodes, each recording its
original position. -/
theorem C1_pool_invariant (n : ℕ) (ops : List PoolOp) :
    (poolAfter n ops).available.length + (poolAfter n ops).countInUse = n ∧
    (poolAfter n ops).pool.length = n ∧
    (∀ i < n, ((poolAfter n ops).nodeAt i).index = i) := by
  obtain ⟨hlen, -, -, -, hidx, hcount⟩ := WF_poolAfter n ops
  exact ⟨hcount, hlen, hidx⟩

/-- Witness for C1 at capacity 3 after an acquire and a release. -/
theorem C1_pool_invariant_witness :
    (poolAfter 3 [PoolOp.acquire, PoolOp.release 2]).available.length +
      (poolAfter 3 [PoolOp.acquire, PoolOp.release 2]).countInUse = 3 ∧
    ((poolAfter 3 [PoolOp.acquire, PoolOp.release 2]).nodeAt 1).index = 1 :=
  ⟨(C1_pool_invariant 3 [PoolOp.acquire, PoolOp.release 2]).1,
   (C1_pool_invariant 3 [PoolOp.acquire, PoolOp.release 2]).2.2 1 (by decide)⟩

/-- Claim C5: in every reachable pool state `acquire` is total (exhaustion is
signalled by `none`, never an exception): when a node is free it returns that
node marked in-use with its gain reset to silence and an empty automation
queue; when the free-list is empty it returns `none` with the pool unchanged;
and the in-use count never exceeds the capacity, no matter how many partials
were requested. -/
theorem C5_acquire_never_throws (n : ℕ) (ops : List PoolOp) :
    ((poolAfter n ops).available = [] →
      (poolAfter n ops).acquire = (none, poolAfter n ops)) ∧
    (∀ idx rest, (poolAfter n ops).available = idx :: rest →
      ((poolAfter n ops).acquire).1 = some idx ∧
      (((poolAfter n ops).acquire).2.nodeAt idx).inUse = true ∧
      (((poolAfter n ops).acquire).2.nodeAt idx).gain = { value := 0, events := [] } ∧
      ((poolAfter n ops).acquire).2.available = rest) ∧
    ((poolAfter n ops).acquire).2.countInUse ≤ n ∧
    (poolAfter n ops).countInUse ≤ n := by
  obtain ⟨hlen, hnd, hbound, hiff, hidx, hcount⟩ := WF_poolAfter n ops
  refine ⟨fun hav => acquire_nil hav, ?_, ?_, ?_⟩
  · intro idx rest hav
    have hmem : idx ∈ (poolAfter n ops).available := by
      rw [hav]; exact List.mem_cons_self idx rest
    have hidx_len : idx < (poolAfter n ops).pool.length := by
      have h1 := hbound idx hmem
      omega
    rw [acquire_cons hav]
    exact ⟨rfl, nodeAt_set_self (poolAfter n ops) rest idx _ hidx_len ▸ rfl,
      nodeAt_set_self (poolAfter n ops) rest idx _ hidx_len ▸ rfl, rfl⟩
  · obtain ⟨-, -, -, -, -, hc2⟩ := WF_acquire ⟨hlen, hnd, hbound, hiff, hidx, hcount⟩
    omega
  · omega

/-- Witness for C5: exhausting a capacity-2 pool yields `none`; a fresh
acquire returns the top free index with the in-use count still bounded. -/
theorem C5_acquire_never_throws_witness :
    ((poolAfter 2 [PoolOp.acquire, PoolOp.acquire]).acquire =
      (none, poolAfter 2 [PoolOp.acquire, PoolOp.acquire])) ∧
    ((poolAfter 2 []).acquire).1 = some 1 ∧
    ((poolAfter 2 []).acquire).2.countInUse ≤ 2 :=
  ⟨(C5_acquire_never_throws 2 [PoolOp.acquire, PoolOp.acquire]).1 (by decide),
   ((C5_acquire_never_throws 2 []).2.1 1 [0] (by decide)).1,
   (C5_acquire_never_throws 2 []).2.2.1⟩

/-- Claim C6: `release` is idempotent — releasing a null reference or an
already-free partial is a no-op leaving the pool (and so the free-list)
unchanged, releasing twice in a row equals releasing once, and releasing an
in-use partial resets its gain to 0, clears its scheduled automation events,
marks it free, and returns its recorded index to the free-list. -/
theorem C6_release_idempotent (p : PartialPool) (i : ℕ) :
    (p.pool.get? i = none → p.release i = p) ∧
    (∀ node, p.pool.get? i = some node → node.inUse = false → p.release i = p) ∧
    ((p.release i).release i = p.release i) ∧
    (∀ node, p.pool.get? i = some node → node.inUse = true →
      (p.release i).available = node.index :: p.available ∧
      ((p.release i).nodeAt i).inUse = false ∧
      ((p.release i).nodeAt i).gain = { value := 0, events := [] }) := by
  refine ⟨fun hget => release_none hget, fun node hget hu => release_free hget hu, ?_, ?_⟩
  · cases hget : p.pool.get? i with
    | none => rw [release_none hget, release_none hget]
    | some node =>
      by_cases hu : node.inUse
      · have hi_len : i < p.pool.length := by
          by_contra hc
          push_neg at hc
          rw [List.get?_eq_none.mpr hc] at hget
          exact absurd hget (by simp)
        rw [release_used hget hu]
        have hget2 : (p.pool.set i
            { oscFreq := node.oscFreq, filterFreq := node.filterFreq,
              gain := { value := 0, events := [] }, inUse := false,
              index := node.index }).get? i = some
            { oscFreq := node.oscFreq, filterFreq := node.filterFreq,
              gain := { value := 0, events := [] }, inUse := false,
              index := node.index } := by
          rw [List.get?_eq_getElem?]
          simp [List.getElem?_set_self, hi_len]
        exact release_free hget2 rfl
      · rw [release_free hget (by simpa using hu), release_free hget (by simpa using hu)]
  · intro node hget hu
    have hi_len : i < p.pool.length := by
      by_contra hc
      push_neg at hc
      rw [List.get?_eq_none.mpr hc] at hget
      exact absurd hget (by simp)
    rw [release_used hget hu]
    exact ⟨rfl, nodeAt_set_self p (node.index :: p.available) i _ hi_len ▸ rfl,
      nodeAt_set_self p (node.index :: p.available) i _ hi_len ▸ rfl⟩

/-- Witness for C6: on a capacity-2 pool with node 1 acquired, releasing the
free node 0 is a no-op and releasing node 1 frees it and pushes index 1. -/
theorem C6_release_idempotent_witness :
    (poolAfter 2 [PoolOp.acquire]).release 0 = poolAfter 2 [PoolOp.acquire] ∧
    ((poolAfter 2 [PoolOp.acquire]).release 1).available =
      (1 : ℕ) :: (poolAfter 2 [PoolOp.acquire]).available ∧
    (((poolAfter 2 [PoolOp.acquire]).release 1).nodeAt 1).inUse = false :=
  ⟨(C6_release_idempotent (poolAfter 2 [PoolOp.acquire]) 0).2.1
      { oscFreq := 440, filterFreq := 20000, gain := { value := 0, events := [] },
        inUse := false, index := 0 } (by decide) rfl,
   ((C6_release_idempotent (poolAfter 2 [PoolOp.acquire]) 1).2.2.2
      { oscFreq := 440, filterFreq := 20000, gain := { value := 0, events := [] },
        inUse := true, index := 1 } (by decide) rfl).1,
   ((C6_release_idempotent (poolAfter 2 [PoolOp.acquire]) 1).2.2.2
      { oscFreq := 440, filterFreq := 20000, gain := { value := 0, events := [] },
        inUse := true, index := 1 } (by decide) rfl).2.1⟩

/-! ### Voice-lifecycle scenario theorems -/

/-- Claim C2 evaluated on the code: `noteOn` does not release a prior voice
with the same id — `activeNotes.set(noteId, …)` overwrites the map entry and
the first call's partials stay marked in-use with no owning voice.  On a
fresh capacity-8 synth, two `noteOn(id 1)` calls that each select two
partials leave FOUR pool nodes in use (the sum, not the second call's own
count of two), with only the second call's partials `[5, 4]` attributed to
id 1; nothing ever releases nodes 7 and 6. -/
theorem C2_retrigger_leaks :
    ((noteOn ((noteOn (freshSynth 8) 1 440 100 true false [cfgA, cfgB]).1)
        1 440 100 true false [cfgA, cfgB]).1).pool.countInUse = 4 ∧
    getActivePartialCount
      ((noteOn ((noteOn (freshSynth 8) 1 440 100 true false [cfgA, cfgB]).1)
        1 440 100 true false [cfgA, cfgB]).1) = 2 ∧
    (mapGet ((noteOn ((noteOn (freshSynth 8) 1 440 100 true false [cfgA, cfgB]).1)
        1 440 100 true false [cfgA, cfgB]).1).activeNotes 1).map (fun v => v.partials) =
      some [5, 4] := by
  decide!

/-- Claim C3 evaluated on the code: in the spec's own scenario (capacity 4,
two pedal-sustained voices holding two partials each), a third `noteOn`
requesting two partials acquires ZERO of them, not two.  Voice stealing runs
`noteOff(stolenId, 0.05, false)`, which only SCHEDULES cleanup
(a task 0.05 s + 0.1 s out) — no partial returns to the free-list during the
call, so the synchronous retry of `acquire()` fails and the loop breaks. -/
theorem C3_steal_retry_gets_nothing :
    (mapGet ((noteOn c3State 12 440 100 true false [cfgA, cfgB]).1).activeNotes 12).map
        (fun v => v.partials.length) = some 0 ∧
    ((noteOn c3State 12 440 100 true false [cfgA, cfgB]).1).pool.available = [] ∧
    ((noteOn c3State 12 440 100 true false [cfgA, cfgB]).1).pool.countInUse = 4 ∧
    ((noteOn c3State 12 440 100 true false [cfgA, cfgB]).1).pendingCleanups = [10] ∧
    ((noteOn c3State 12 440 100 true false [cfgA, cfgB]).1).tasks =
      [(3/20, STask.cleanup 10)] := by
  decide!

/-! ### Voice stealing (C4) -/

theorem steal_foldl_some (s : SynthState) :
    ∀ (l : List (ℕ × Voice)) (acc : Option (ℕ × ℚ)) (j : ℕ) (b : ℚ),
      l.foldl (stealFoldStep s) acc = some (j, b) →
      ((acc = some (j, b)) ∨
        (∃ v, (j, v) ∈ l ∧ v.keyDown = false ∧ v.partials ≠ [] ∧ b = stealScoreOf s v)) ∧
      (∀ e ∈ l, e.2.keyDown = false → e.2.partials ≠ [] → b ≤ stealScoreOf s e.2) ∧
      (∀ (j' : ℕ) (b' : ℚ), acc = some (j', b') → b ≤ b') := by
  intro l
  induction l with
  | nil =>
    intro acc j b h
    simp only [List.foldl_nil] at h
    refine ⟨Or.inl h, by simp, ?_⟩
    intro j' b' h'
    rw [h] at h'
    simp only [Option.some.injEq, Prod.mk.injEq] at h'
    exact le_of_eq h'.2
  | cons e l ih =>
    intro acc j b h
    rw [List.foldl_cons] at h
    obtain ⟨hmem, hmin, hacc⟩ := ih (stealFoldStep s acc e) j b h
    by_cases he : (!e.2.keyDown && decide (0 < e.2.partials.length)) = true
    · have hkd : e.2.keyDown = false := by
        have := (Bool.and_eq_true _ _).mp he
        simpa using this.1
      have hne : e.2.partials ≠ [] := by
        have h0 : 0 < e.2.partials.length := by
          have := (Bool.and_eq_true _ _).mp he
          simpa using this.2
        exact List.length_pos.mp h0
      cases hacc0 : acc with
      | none =>
        have hstep : stealFoldStep s acc e = some (e.1, stealScoreOf s e.2) := by
          rw [hacc0]
          simp only [stealFoldStep]
          rw [if_pos he]
        rw [hstep] at hmem hacc
        have hble : b ≤ stealScoreOf s e.2 := hacc e.1 _ rfl
        refine ⟨?_, ?_, ?_⟩
        · rcases hmem with hm | ⟨v, hv, hkd', hp', hb'⟩
          · simp only [Option.some.injEq, Prod.mk.injEq] at hm
            right
            refine ⟨e.2, ?_, hkd, hne, hm.2.symm⟩
            rw [← hm.1]
            exact List.mem_cons_self e l
          · exact Or.inr ⟨v, List.mem_cons_of_mem e hv, hkd', hp', hb'⟩
        · intro e' he' hkd' hp'
          rcases List.mem_cons.mp he' with rfl | hmem'
          · exact hble
          · exact hmin e' hmem' hkd' hp'
        · intro j' b' h'
          exact absurd h' (by simp)
      | some jb =>
        obtain ⟨j0, b0⟩ := jb
        by_cases hlt : stealScoreOf s e.2 < b0
        · have hstep : stealFoldStep s acc e = some (e.1, stealScoreOf s e.2) := by
            rw [hacc0]
            simp only [stealFoldStep]
            rw [if_pos he, if_pos hlt]
          rw [hstep] at hmem hacc
          have hble : b ≤ stealScoreOf s e.2 := hacc e.1 _ rfl
          refine ⟨?_, ?_, ?_⟩
          · rcases hmem with hm | ⟨v, hv, hkd', hp', hb'⟩
            · simp only [Option.some.injEq, Prod.mk.injEq] at hm
              right
              refine ⟨e.2, ?_, hkd, hne, hm.2.symm⟩
              rw [← hm.1]
              exact List.mem_cons_self e l
            · exact Or.inr ⟨v, List.mem_cons_of_mem e hv, hkd', hp', hb'⟩
          · intro e' he' hkd' hp'
            rcases List.mem_cons.mp he' with rfl | hmem'
            · exact hble
            · exact hmin e' hmem' hkd' hp'
          · intro j' b' h'
            simp only [Option.some.injEq, Prod.mk.injEq] at h'
            exact le_trans hble (le_of_lt (h'.2 ▸ hlt))
        · have hstep : stealFoldStep s acc e = some (j0, b0) := by
            rw [hacc0]
            simp only [stealFoldStep]
            rw [if_pos he, if_neg hlt]
          rw [hstep] at hmem hacc
          have hble0 : b ≤ b0 := hacc j0 b0 rfl
          refine ⟨?_, ?_, ?_⟩
          · rcases hmem with hm | ⟨v, hv, hkd', hp', hb'⟩
            · exact Or.inl hm
            · exact Or.inr ⟨v, List.mem_cons_of_mem e hv, hkd', hp', hb'⟩
          · intro e' he' hkd' hp'
            rcases List.mem_cons.mp he' with rfl | hmem'
            · exact le_trans hble0 (le_of_not_lt hlt)
            · exact hmin e' hmem' hkd' hp'
          · intro j' b' h'
            simp only [Option.some.injEq, Prod.mk.injEq] at h'
            exact h'.2 ▸ hble0
    · have hstep : stealFoldStep s acc e = acc := by
        cases hacc0 : acc with
        | none =>
          simp only [stealFoldStep]
          rw [if_neg he]
        | some jb =>
          obtain ⟨j0, b0⟩ := jb
          simp only [stealFoldStep]
          rw [if_neg he]
      rw [hstep] at hmem hacc
      refine ⟨?_, ?_, ?_⟩
      · rcases hmem with hm | ⟨v, hv, hkd', hp', hb'⟩
        · exact Or.inl hm
        · exact Or.inr ⟨v, List.mem_cons_of_mem e hv, hkd', hp', hb'⟩
      · intro e' he' hkd' hp'
        rcases List.mem_cons.mp he' with rfl | hmem'
        · exact absurd (by simp [hkd', List.length_pos.mpr hp']) he
        · exact hmin e' hmem' hkd' hp'
      · exact hacc

/-- Claim C4: whenever voice stealing selects a victim, the selected entry
has `keyDown = false` (a physically held note is never stolen) and at least
one partial, its steal score `effectiveVolume / (1 + age * 0.1)` is minimal
among all eligible voices, and the chosen note is the one given the forced
50 ms release. -/
theorem C4_steal_respects_held (s : SynthState) (id : ℕ)
    (h : (stealVoiceFromQuietestSustainedNote s).1 = some id) :
    ∃ v, (id, v) ∈ s.activeNotes ∧ v.keyDown = false ∧ v.partials ≠ [] ∧
      (∀ e ∈ s.activeNotes, e.2.keyDown = false → e.2.partials ≠ [] →
        stealScoreOf s v ≤ stealScoreOf s e.2) ∧
      (stealVoiceFromQuietestSustainedNote s).2 = noteOff s id (1/20) false := by
  unfold stealVoiceFromQuietestSustainedNote at h ⊢
  cases hbest : s.activeNotes.foldl (stealFoldStep s) none with
  | none => rw [hbest] at h; exact absurd h (by simp)
  | some jb =>
    obtain ⟨j, b⟩ := jb
    rw [hbest] at h
    simp only [Option.some.injEq] at h
    subst h
    obtain ⟨hmem, hmin, -⟩ := steal_foldl_some s s.activeNotes none j b hbest
    rcases hmem with hm | ⟨v, hv, hkd, hp, hb⟩
    · exact absurd hm (by simp)
    · exact ⟨v, hv, hkd, hp, fun e he hkd' hp' => hb ▸ hmin e he hkd' hp', rfl⟩

/-- Witness for C4 on the concrete exhaustion scenario `c3State`: the scan
selects note 10 (older, hence lower-scoring), which is pedal-sustained. -/
theorem C4_steal_respects_held_witness :
    ∃ v, (10, v) ∈ c3State.activeNotes ∧ v.keyDown = false ∧ v.partials ≠ [] ∧
      (∀ e ∈ c3State.activeNotes, e.2.keyDown = false → e.2.partials ≠ [] →
        stealScoreOf c3State v ≤ stealScoreOf c3State e.2) ∧
      (stealVoiceFromQuietestSustainedNote c3State).2 = noteOff c3State 10 (1/20) false :=
  C4_steal_respects_held c3State 10 (by decide!)

/-! ### Partial selection and admission control (C7) -/

theorem mem_insertByAmpDesc {x c : Config} {l : List Config} :
    x ∈ insertByAmpDesc c l ↔ x = c ∨ x ∈ l := by
  induction l with
  | nil => simp [insertByAmpDesc]
  | cons d ds ih =>
    unfold insertByAmpDesc
    by_cases h : c.amp < d.amp
    · rw [if_pos h]
      simp only [List.mem_cons, ih]
      tauto
    · rw [if_neg h]
      simp only [List.mem_cons]

theorem mem_sortByAmpDesc {x : Config} {l : List Config} :
    x ∈ sortByAmpDesc l ↔ x ∈ l := by
  induction l with
  | nil => simp [sortByAmpDesc]
  | cons c cs ih =>
    unfold sortByAmpDesc
    rw [mem_insertByAmpDesc]
    simp [ih]

theorem setOscFreq_available (p : PartialPool) (i : ℕ) (v : ℚ) :
    (p.setOscFreq i v).available = p.available := by
  unfold PartialPool.setOscFreq
  cases p.pool.get? i <;> rfl

theorem modifyGain_available (p : PartialPool) (i : ℕ) (f : GainParam → GainParam) :
    (p.modifyGain i f).available = p.available := by
  unfold PartialPool.modifyGain
  cases p.pool.get? i <;> rfl

theorem configureAcquired_available (acc : AcqAcc) (idx : ℕ) (c : Config) (velocity : ℕ)
    (now : ℚ) :
    (configureAcquired acc idx c velocity now).state.pool.available
      = acc.state.pool.available := by
  unfold configureAcquired SynthState.modifyGain
  rw [modifyGain_available, setOscFreq_available]

theorem poolAcquire_cons {s : SynthState} {a : ℕ} {rest : List ℕ}
    (hav : s.pool.available = a :: rest) :
    s.poolAcquire = (some a,
      { s with pool := ⟨s.pool.pool.set a
          { oscFreq := (s.pool.pool.getD a default).oscFreq,
            filterFreq := (s.pool.pool.getD a default).filterFreq,
            gain := { value := 0, events := [] }, inUse := true,
            index := (s.pool.pool.getD a default).index },
          rest⟩ }) := by
  unfold SynthState.poolAcquire
  rw [acquire_cons hav]

theorem mapGet_mapSet_self (m : List (ℕ × Voice)) (k : ℕ) (v : Voice) :
    mapGet (mapSet m k v) k = some v := by
  unfold mapGet mapSet
  by_cases h : m.any (fun e => e.1 == k)
  · rw [if_pos h]
    induction m with
    | nil => simp at h
    | cons e m ih =>
      simp only [List.map_cons]
      by_cases hek : (e.1 == k) = true
      · rw [if_pos hek]
        rw [List.find?_cons_of_pos _ (by simp)]
        rfl
      · rw [if_neg hek]
        rw [List.find?_cons_of_neg _ (by simpa using hek)]
        have h' : m.any (fun e => e.1 == k) = true := by
          simp only [List.any_cons] at h
          rcases Bool.or_eq_true _ _ |>.mp h with h1 | h2
          · exact absurd h1 hek
          · exact h2
        exact ih h'
  · rw [if_neg h]
    induction m with
    | nil =>
      simp only [List.nil_append]
      rw [List.find?_cons_of_pos _ (by simp)]
      rfl
    | cons e m ih =>
      simp only [List.any_cons, Bool.or_eq_true, not_or] at h
      simp only [List.cons_append]
      rw [List.find?_cons_of_neg _ (by simpa using h.1)]
      exact ih (by simpa using h.2)

theorem adaptiveMax_eq_or_ge (m a t : ℕ) :
    adaptiveMaxPartialsOf m a t = m ∨ 6 ≤ adaptiveMaxPartialsOf m a t := by
  unfold adaptiveMaxPartialsOf
  by_cases h : (7 : ℚ)/10 < 1 - (a : ℚ) / (t : ℚ)
  · rw [if_pos h]
    right
    have h6 : (6 : ℤ) ≤ max 6 (jsRound ((m : ℚ) * (1 - ((1 - (a : ℚ) / (t : ℚ)) - 7/10) / (3/10)))) :=
      le_max_left _ _
    omega
  · rw [if_neg h]
    left
    rfl

/-- `selectPartials` called from `noteOn` with the adaptive budget behaves as
if the `limit || this.maxPartials` fallback were absent: the budget is 0 only
when it equals `this.maxPartials = 0`, in which case the fallback is the same
number. -/
theorem selectPartials_eq_amended (m : ℕ) (configs : List Config) (a t : ℕ) :
    selectPartials m configs (adaptiveMaxPartialsOf m a t)
      = selectPartialsAmended configs (adaptiveMaxPartialsOf m a t) := by
  unfold selectPartials selectPartialsAmended
  by_cases h0 : adaptiveMaxPartialsOf m a t = 0
  · rcases adaptiveMax_eq_or_ge m a t with he | hge
    · have hm : m = 0 := by omega
      rw [h0, hm]
      simp
    · omega
  · rw [if_neg h0]

theorem acquireLoop_enough (velocity : ℕ) (now : ℚ) :
    ∀ (cs : List Config) (acc : AcqAcc),
      (∀ c ∈ cs, ¬ (24000 : ℚ) < c.freq) →
      cs.length ≤ acc.state.pool.available.length →
      (acquireLoop velocity now cs acc).partials
          = acc.partials ++ acc.state.pool.available.take cs.length ∧
      (acquireLoop velocity now cs acc).initialAmplitudes
          = acc.initialAmplitudes
              ++ cs.map (fun c => ({ harmonicNum := c.harmonicNum, initialAmp := c.amp } : InitAmp)) ∧
      (acquireLoop velocity now cs acc).state.activeNotes = acc.state.activeNotes ∧
      (acquireLoop velocity now cs acc).state.pool.available
          = acc.state.pool.available.drop cs.length := by
  intro cs
  induction cs with
  | nil =>
    intro acc h24 hlen
    simp [acquireLoop]
  | cons c cs ih =>
    intro acc h24 hlen
    have hc : ¬ (24000 : ℚ) < c.freq := h24 c (List.mem_cons_self c cs)
    cases hav : acc.state.pool.available with
    | nil => simp [hav] at hlen
    | cons a rest =>
      have hstep : acquireLoop velocity now (c :: cs) acc
          = acquireLoop velocity now cs (configureAcquired
              { acc with state := (acc.state.poolAcquire).2 } a c velocity now) := by
        simp only [acquireLoop]
        rw [if_neg hc, poolAcquire_cons hav]
      set acc' := configureAcquired { acc with state := (acc.state.poolAcquire).2 } a c velocity now
        with hacc'
      have hav' : acc'.state.pool.available = rest := by
        rw [hacc', configureAcquired_available]
        show ((acc.state.poolAcquire).2).pool.available = rest
        rw [poolAcquire_cons hav]
      have hlen' : cs.length ≤ acc'.state.pool.available.length := by
        rw [hav']
        have : (a :: rest).length = rest.length + 1 := rfl
        rw [hav] at hlen
        simp at hlen
        omega
      obtain ⟨ih1, ih2, ih3, ih4⟩ := ih acc' (fun c hc => h24 c (List.mem_cons_of_mem _ hc)) hlen'
      have hpart' : acc'.partials = acc.partials ++ [a] := rfl
      have hinit' : acc'.initialAmplitudes = acc.initialAmplitudes
          ++ [({ harmonicNum := c.harmonicNum, initialAmp := c.amp } : InitAmp)] := rfl
      have hnotes' : acc'.state.activeNotes = acc.state.activeNotes := by
        rw [hacc']
        show (configureAcquired _ a c velocity now).state.activeNotes = _
        unfold configureAcquired SynthState.modifyGain
        show ((acc.state.poolAcquire).2).activeNotes = acc.state.activeNotes
        rw [poolAcquire_cons hav]
      refine ⟨?_, ?_, ?_, ?_⟩
      · rw [hstep, ih1, hpart', hav']
        simp [List.take_succ_cons, List.append_assoc]
      · rw [hstep, ih2, hinit']
        simp [List.append_assoc]
      · rw [hstep, ih3, hnotes']
      · rw [hstep, ih4, hav']
        simp [List.drop_succ_cons]

/-- Claim C7 counterexample: a config whose amplitude is exactly the 0.001
threshold.  The claim (and spec) keep it — "discard those with amplitude
below the threshold" — but the source tests `amp > ampThreshold` and
discards it, so `noteOn` activates nothing for it even with a free pool. -/
theorem C7_threshold_counterexample :
    selectPartials 12 [cfgThreshold] 12 = [] ∧
    selectPartialsSpec [cfgThreshold] 12 = [cfgThreshold] ∧
    getActivePartialCount ((noteOn (freshSynth 8) 1 440 100 true false [cfgThreshold]).1) = 0 := by
  decide!

/-- Claim C7 (amended: a config whose amplitude is at or below 0.001 is
discarded): with enough free partials, `noteOn` activates exactly the
partials chosen by the selection algorithm — survivors of the amplitude and
24 kHz frequency filters, sorted by amplitude descending, the top `K` kept,
where `K` is the adaptive budget: `maxPartials` at up to 70 % pool usage and
linearly scaled down above that with a floor of 6. -/
theorem C7_selection_amended (s : SynthState) (noteId : ℕ) (frequency : ℚ)
    (velocity : ℕ) (keyDown pedalDown : Bool) (configs : List Config) (K : ℕ)
    (sel : List Config)
    (hK : K = adaptiveMaxPartialsOf s.maxPartials s.pool.available.length s.pool.pool.length)
    (hsel : sel = selectPartialsAmended configs K)
    (hEnough : sel.length ≤ s.pool.available.length) :
    ∃ v, mapGet ((noteOn s noteId frequency velocity keyDown pedalDown configs).1).activeNotes
        noteId = some v ∧
      v.partials = s.pool.available.take sel.length ∧
      v.partials.length = sel.length ∧
      v.initialAmplitudes
        = sel.map (fun c => ({ harmonicNum := c.harmonicNum, initialAmp := c.amp } : InitAmp)) := by
  have hconfigs : selectPartials s.maxPartials configs
      (adaptiveMaxPartialsOf s.maxPartials s.pool.available.length s.pool.pool.length) = sel := by
    rw [selectPartials_eq_amended, ← hK, ← hsel]
  have h24 : ∀ c ∈ sel, ¬ (24000 : ℚ) < c.freq := by
    intro c hc
    rw [hsel] at hc
    unfold selectPartialsAmended at hc
    have hc1 := List.mem_of_mem_take hc
    have hc2 := mem_sortByAmpDesc.mp hc1
    have hc3 := (List.mem_filter.mp hc2).2
    simp only [Bool.and_eq_true, decide_eq_true_eq] at hc3
    exact not_lt_of_le hc3.2
  obtain ⟨h1, h2, h3, -⟩ := acquireLoop_enough velocity s.now sel
    { state := s, partials := [], initialAmplitudes := [] } h24 hEnough
  simp only [noteOn]
  rw [hconfigs]
  refine ⟨_, mapGet_mapSet_self _ _ _, by simpa using h1, ?_, by simpa using h2⟩
  have h1' : (acquireLoop velocity s.now sel
      { state := s, partials := [], initialAmplitudes := [] }).partials
      = s.pool.available.take sel.length := by simpa using h1
  simp only [h1', List.length_take]
  omega

/-- Witness for C7 (amended) on a fresh capacity-8 synth: both configs
survive selection and the voice takes the top two free-list indices. -/
theorem C7_selection_amended_witness :
    ∃ v, mapGet ((noteOn (freshSynth 8) 1 440 100 true false [cfgA, cfgB]).1).activeNotes
        1 = some v ∧
      v.partials = (freshSynth 8).pool.available.take
        (selectPartialsAmended [cfgA, cfgB] 12).length ∧
      v.partials.length = (selectPartialsAmended [cfgA, cfgB] 12).length ∧
      v.initialAmplitudes = (selectPartialsAmended [cfgA, cfgB] 12).map
        (fun c => ({ harmonicNum := c.harmonicNum, initialAmp := c.amp } : InitAmp)) :=
  C7_selection_amended (freshSynth 8) 1 440 100 true false [cfgA, cfgB] 12
    (selectPartialsAmended [cfgA, cfgB] 12) (by decide!) rfl (by decide!)

/-! ### noteOff and cleanup (C8) -/

theorem releaseRampGain_eq (safe now anchor : ℚ) (g : GainParam) :
    releaseRampGain safe now anchor g = rampedGain safe now anchor := by
  unfold releaseRampGain rampedGain GainParam.cancelScheduledValues GainParam.setValueAtTime
    GainParam.linearRampToValueAtTime GainParam.expRampToValueAtTime
  by_cases hs : safe < 3/20 <;> simp [hs]

theorem cancelPending_parts (s : SynthState) (id : ℕ) :
    (s.cancelPending id).pool = s.pool ∧
    (s.cancelPending id).activeNotes = s.activeNotes ∧
    (s.cancelPending id).now = s.now := by
  unfold SynthState.cancelPending
  split <;> exact ⟨rfl, rfl, rfl⟩

theorem get?_some_lt {p : PartialPool} {i : ℕ} {node : PartialNode}
    (h : p.pool.get? i = some node) : i < p.pool.length := by
  by_contra hc
  push_neg at hc
  rw [List.get?_eq_none.mpr hc] at h
  exact absurd h (by simp)

theorem modifyGain_get?_ne (p : PartialPool) (i j : ℕ) (f : GainParam → GainParam)
    (h : i ≠ j) : (p.modifyGain i f).pool.get? j = p.pool.get? j := by
  unfold PartialPool.modifyGain
  cases hg : p.pool.get? i with
  | none => rfl
  | some node =>
    show (p.pool.set i _).get? j = _
    rw [List.get?_eq_getElem?, List.get?_eq_getElem?, List.getElem?_set_ne h]

theorem modifyGain_get?_self (p : PartialPool) (i : ℕ) (f : GainParam → GainParam)
    (node : PartialNode) (h : p.pool.get? i = some node) :
    (p.modifyGain i f).pool.get? i = some { node with gain := f node.gain } := by
  have hlen : i < p.pool.length := get?_some_lt h
  unfold PartialPool.modifyGain
  rw [h]
  show (p.pool.set i _).get? i = _
  rw [List.get?_eq_getElem?]
  simp [List.getElem?_set_self, hlen]

theorem nodeGainValue_eq (s : SynthState) (idx : ℕ) (node : PartialNode)
    (h : s.pool.pool.get? idx = some node) : s.nodeGainValue idx = node.gain.value := by
  unfold SynthState.nodeGainValue
  rw [h]
  rfl

theorem length_filter_set_same (l : List PartialNode) (i : ℕ) (x : PartialNode)
    (hsame : x.inUse = (l.getD i default).inUse) :
    ((l.set i x).filter (·.inUse)).length = (l.filter (·.inUse)).length := by
  induction l generalizing i with
  | nil => simp
  | cons a as ih =>
    cases i with
    | zero =>
      have ha : x.inUse = a.inUse := by simpa using hsame
      by_cases hb : a.inUse <;> simp [List.filter_cons, hb, ha]
    | succ i =>
      have hs : x.inUse = (as.getD i default).inUse := by simpa using hsame
      by_cases hb : a.inUse <;> simp [List.filter_cons, hb, ih i hs]

theorem modifyGain_countInUse (p : PartialPool) (i : ℕ) (f : GainParam → GainParam) :
    (p.modifyGain i f).countInUse = p.countInUse := by
  unfold PartialPool.modifyGain PartialPool.countInUse
  cases hg : p.pool.get? i with
  | none => rfl
  | some node =>
    show ((p.pool.set i _).filter _).length = _
    apply length_filter_set_same
    have hd : p.pool.getD i default = node := by
      rw [List.getD_eq_getElem?_getD, ← List.get?_eq_getElem?, hg]
      rfl
    rw [hd]

theorem noteOffRampStep_parts (now safe : ℚ) (st : SynthState) (idx : ℕ) :
    (noteOffRampStep now safe st idx).pool.available = st.pool.available ∧
    (noteOffRampStep now safe st idx).activeNotes = st.activeNotes ∧
    (noteOffRampStep now safe st idx).pendingCleanups = st.pendingCleanups ∧
    (noteOffRampStep now safe st idx).tasks = st.tasks ∧
    (noteOffRampStep now safe st idx).now = st.now ∧
    (noteOffRampStep now safe st idx).pool.countInUse = st.pool.countInUse := by
  unfold noteOffRampStep SynthState.modifyGain
  exact ⟨modifyGain_available _ _ _, rfl, rfl, rfl, rfl, modifyGain_countInUse _ _ _⟩

theorem noteOffRamp_fold_parts (now safe : ℚ) (ps : List ℕ) :
    ∀ st : SynthState,
      (ps.foldl (noteOffRampStep now safe) st).pool.available = st.pool.available ∧
      (ps.foldl (noteOffRampStep now safe) st).activeNotes = st.activeNotes ∧
      (ps.foldl (noteOffRampStep now safe) st).pendingCleanups = st.pendingCleanups ∧
      (ps.foldl (noteOffRampStep now safe) st).tasks = st.tasks ∧
      (ps.foldl (noteOffRampStep now safe) st).now = st.now ∧
      (ps.foldl (noteOffRampStep now safe) st).pool.countInUse = st.pool.countInUse := by
  induction ps with
  | nil => intro st; exact ⟨rfl, rfl, rfl, rfl, rfl, rfl⟩
  | cons p ps ih =>
    intro st
    obtain ⟨h1, h2, h3, h4, h5, h6⟩ := ih (noteOffRampStep now safe st p)
    obtain ⟨g1, g2, g3, g4, g5, g6⟩ := noteOffRampStep_parts now safe st p
    rw [List.foldl_cons]
    exact ⟨h1.trans g1, h2.trans g2, h3.trans g3, h4.trans g4, h5.trans g5, h6.trans g6⟩

theorem noteOffRamp_fold_get? (now safe : ℚ) (ps : List ℕ) :
    ∀ (st : SynthState) (idx : ℕ) (node : PartialNode),
      st.pool.pool.get? idx = some node →
      (ps.foldl (noteOffRampStep now safe) st).pool.pool.get? idx
        = some (if idx ∈ ps then { node with gain := rampedGain safe now node.gain.value }
                else node) := by
  induction ps with
  | nil =>
    intro st idx node h
    simpa using h
  | cons p ps ih =>
    intro st idx node h
    rw [List.foldl_cons]
    by_cases hp : p = idx
    · subst hp
      have hstep : (noteOffRampStep now safe st p).pool.pool.get? p
          = some { node with gain := rampedGain safe now node.gain.value } := by
        unfold noteOffRampStep
        rw [nodeGainValue_eq st p node h]
        have hm := modifyGain_get?_self st.pool p
          (releaseRampGain safe now node.gain.value) node h
        rw [releaseRampGain_eq] at hm
        exact hm
      rw [ih (noteOffRampStep now safe st p) p _ hstep]
      by_cases hmem : p ∈ ps <;> simp [hmem, rampedGain]
    · have hstep : (noteOffRampStep now safe st p).pool.pool.get? idx = some node := by
        show (st.pool.modifyGain p _).pool.get? idx = some node
        rw [modifyGain_get?_ne st.pool p idx _ hp]
        exact h
      rw [ih (noteOffRampStep now safe st p) idx node hstep]
      have hiff : (idx ∈ p :: ps) ↔ (idx ∈ ps) := by
        constructor
        · intro hc
          rcases List.mem_cons.mp hc with hc | hc
          · exact absurd hc.symm hp
          · exact hc
        · exact List.mem_cons_of_mem p
      by_cases hmem : idx ∈ ps
      · rw [if_pos hmem, if_pos (hiff.mpr hmem)]
      · rw [if_neg hmem, if_neg (fun hc => hmem (hiff.mp hc))]

theorem cleanupRampStep_parts (now : ℚ) (st : SynthState) (idx : ℕ) :
    (cleanupRampStep now st idx).pool.available = st.pool.available ∧
    (cleanupRampStep now st idx).activeNotes = st.activeNotes ∧
    (cleanupRampStep now st idx).pendingCleanups = st.pendingCleanups ∧
    (cleanupRampStep now st idx).now = st.now ∧
    (cleanupRampStep now st idx).pool.countInUse = st.pool.countInUse ∧
    (cleanupRampStep now st idx).tasks
      = st.tasks ++ [((15 : ℚ)/1000, STask.releaseNode idx)] := by
  unfold cleanupRampStep SynthState.modifyGain
  exact ⟨modifyGain_available _ _ _, rfl, rfl, rfl, modifyGain_countInUse _ _ _, rfl⟩

theorem cleanupRamp_fold_parts (now : ℚ) (ps : List ℕ) :
    ∀ st : SynthState,
      (ps.foldl (cleanupRampStep now) st).pool.available = st.pool.available ∧
      (ps.foldl (cleanupRampStep now) st).activeNotes = st.activeNotes ∧
      (ps.foldl (cleanupRampStep now) st).pendingCleanups = st.pendingCleanups ∧
      (ps.foldl (cleanupRampStep now) st).now = st.now ∧
      (ps.foldl (cleanupRampStep now) st).pool.countInUse = st.pool.countInUse ∧
      (ps.foldl (cleanupRampStep now) st).tasks
        = st.tasks ++ ps.map (fun i => ((15 : ℚ)/1000, STask.releaseNode i)) := by
  induction ps with
  | nil => intro st; exact ⟨rfl, rfl, rfl, rfl, rfl, by simp⟩
  | cons p ps ih =>
    intro st
    obtain ⟨h1, h2, h3, h4, h5, h6⟩ := ih (cleanupRampStep now st p)
    obtain ⟨g1, g2, g3, g4, g5, g6⟩ := cleanupRampStep_parts now st p
    rw [List.foldl_cons]
    refine ⟨h1.trans g1, h2.trans g2, h3.trans g3, h4.trans g4, h5.trans g5, ?_⟩
    rw [h6, g6]
    simp

theorem mapGet_mapErase_self (m : List (ℕ × Voice)) (k : ℕ) :
    mapGet (mapErase m k) k = none := by
  unfold mapGet mapErase
  induction m with
  | nil => rfl
  | cons e m ih =>
    simp only [List.filter_cons]
    by_cases hek : (e.1 == k) = true
    · simp only [hek, Bool.not_true, if_false]
      exact ih
    · simp only [hek, Bool.not_false, if_true]
      rw [List.find?_cons_of_neg _ (by simpa using hek)]
      exact ih

theorem find?_updateGain (m : List (ℕ × Voice)) (k : ℕ) (f : GainParam → GainParam) :
    ((m.map (fun e => if e.1 == k then (e.1, { e.2 with gainNode := f e.2.gainNode }) else e)).find?
        (fun e => e.1 == k))
      = (m.find? (fun e => e.1 == k)).map
          (fun e => (e.1, { e.2 with gainNode := f e.2.gainNode })) := by
  induction m with
  | nil => rfl
  | cons e m ih =>
    simp only [List.map_cons]
    by_cases hek : (e.1 == k) = true
    · rw [if_pos hek, List.find?_cons_of_pos _ (by simpa using hek),
        List.find?_cons_of_pos _ (by simpa using hek)]
      rfl
    · rw [if_neg hek, List.find?_cons_of_neg _ (by simpa using hek),
        List.find?_cons_of_neg _ (by simpa using hek)]
      exact ih

theorem mapGet_updateVoiceGainNode (s : SynthState) (id : ℕ) (f : GainParam → GainParam) :
    mapGet (updateVoiceGainNode s id f).activeNotes id
      = (mapGet s.activeNotes id).map (fun v => { v with gainNode := f v.gainNode }) := by
  unfold updateVoiceGainNode mapGet
  simp only []
  rw [find?_updateGain]
  cases s.activeNotes.find? (fun e => e.1 == id) <;> rfl

theorem noteOffS3_parts (s : SynthState) (id : ℕ) (rt : ℚ) (v : Voice) :
    (noteOffS3 s id rt v).pool
      = (v.partials.foldl (noteOffRampStep (s.cancelPending id).now (max (1/10) rt))
          (s.cancelPending id)).pool ∧
    (noteOffS3 s id rt v).tasks
      = (v.partials.foldl (noteOffRampStep (s.cancelPending id).now (max (1/10) rt))
          (s.cancelPending id)).tasks ∧
    (noteOffS3 s id rt v).pendingCleanups
      = (v.partials.foldl (noteOffRampStep (s.cancelPending id).now (max (1/10) rt))
          (s.cancelPending id)).pendingCleanups ∧
    (noteOffS3 s id rt v).now
      = (v.partials.foldl (noteOffRampStep (s.cancelPending id).now (max (1/10) rt))
          (s.cancelPending id)).now := by
  unfold noteOffS3
  split <;> exact ⟨rfl, rfl, rfl, rfl⟩

theorem noteOffS3_getVoice (s : SynthState) (id : ℕ) (rt : ℚ) (v : Voice)
    (h : mapGet s.activeNotes id = some v) :
    ∃ v3, mapGet (noteOffS3 s id rt v).activeNotes id = some v3 ∧ v3.partials = v.partials := by
  obtain ⟨-, hcp_notes, -⟩ := cancelPending_parts s id
  have hfold := (noteOffRamp_fold_parts (s.cancelPending id).now (max (1/10) rt) v.partials
    (s.cancelPending id)).2.1
  have hnotes : (v.partials.foldl (noteOffRampStep (s.cancelPending id).now (max (1/10) rt))
      (s.cancelPending id)).activeNotes = s.activeNotes := hfold.trans hcp_notes
  have hget2 : mapGet (v.partials.foldl (noteOffRampStep (s.cancelPending id).now
      (max (1/10) rt)) (s.cancelPending id)).activeNotes id = some v := by
    unfold mapGet
    rw [hnotes]
    exact h
  unfold noteOffS3
  split
  · refine ⟨{ v with gainNode := releaseRampGain (max (1/10) rt) (s.cancelPending id).now v.gainNode.value v.gainNode }, ?_, rfl⟩
    rw [mapGet_updateVoiceGainNode, hget2]
    rfl
  · exact ⟨v, hget2, rfl⟩

theorem cleanupNoteBody_parts (s : SynthState) (id : ℕ) (v : Voice) :
    mapGet (cleanupNoteBody s id v).activeNotes id = none ∧
    (cleanupNoteBody s id v).tasks
      = (s.cancelPending id).tasks
          ++ v.partials.map (fun i => ((15 : ℚ)/1000, STask.releaseNode i)) ∧
    (cleanupNoteBody s id v).pool.available = s.pool.available ∧
    (cleanupNoteBody s id v).pool.countInUse = s.pool.countInUse := by
  obtain ⟨hcp_pool, -, -⟩ := cancelPending_parts s id
  obtain ⟨hf_av, -, -, -, hf_cnt, hf_tasks⟩ := cleanupRamp_fold_parts (s.cancelPending id).now
    v.partials (s.cancelPending id)
  refine ⟨?_, ?_, ?_, ?_⟩
  · show mapGet (mapErase (v.partials.foldl (cleanupRampStep (s.cancelPending id).now)
        (s.cancelPending id)).activeNotes id) id = none
    exact mapGet_mapErase_self _ _
  · show (v.partials.foldl (cleanupRampStep (s.cancelPending id).now)
        (s.cancelPending id)).tasks = _
    exact hf_tasks
  · show (v.partials.foldl (cleanupRampStep (s.cancelPending id).now)
        (s.cancelPending id)).pool.available = _
    rw [hf_av, hcp_pool]
  · show (v.partials.foldl (cleanupRampStep (s.cancelPending id).now)
        (s.cancelPending id)).pool.countInUse = _
    rw [hf_cnt, hcp_pool]

/-- Claim C8 counterexample: `noteOff(id, 0.5, immediate = true)` does NOT
reclaim the voice's partials synchronously.  Right after the call on
`c8State`, the free-list is still empty and both nodes are still marked
in-use; the actual `partialPool.release` calls sit in 15 ms deferred tasks.
Only the voice record is removed synchronously. -/
theorem C8_immediate_not_synchronous :
    mapGet (noteOff c8State 1 (1/2) true).activeNotes 1 = none ∧
    (noteOff c8State 1 (1/2) true).pool.available = [] ∧
    (noteOff c8State 1 (1/2) true).pool.countInUse = 2 ∧
    (noteOff c8State 1 (1/2) true).tasks =
      [((3 : ℚ)/200, STask.releaseNode 1), ((3 : ℚ)/200, STask.releaseNode 0)] := by
  decide!

/-- Claim C8 (amended: reclamation under `immediate` is initiated, not
completed, synchronously): for every active voice, `noteOff(id, rt, imm)`
gives every partial of the voice a release ramp to 0.001 lasting
`max(rt, 0.1)` seconds, linear below 150 ms and exponential otherwise,
anchored at the partial's current gain; with `imm = false` a cleanup task is
scheduled at `rt + 0.1` seconds and recorded in `pendingCleanups`, while with
`imm = true` the voice is removed from the active map at once and each
partial's pool release becomes a 15 ms deferred task — the free-list and
in-use count are unchanged by the synchronous call itself. -/
theorem C8_noteOff_amended (s : SynthState) (id : ℕ) (rt : ℚ) (v : Voice)
    (h : mapGet s.activeNotes id = some v) :
    (∀ idx node, idx ∈ v.partials → s.pool.pool.get? idx = some node →
      (noteOff s id rt false).pool.pool.get? idx
        = some { node with gain := rampedGain (max (1/10) rt) s.now node.gain.value }) ∧
    ((rt + 1/10, STask.cleanup id) ∈ (noteOff s id rt false).tasks) ∧
    (id ∈ (noteOff s id rt false).pendingCleanups) ∧
    ((noteOff s id rt false).pool.available = s.pool.available) ∧
    (mapGet (noteOff s id rt true).activeNotes id = none) ∧
    (∀ idx ∈ v.partials, ((15 : ℚ)/1000, STask.releaseNode idx) ∈ (noteOff s id rt true).tasks) ∧
    ((noteOff s id rt true).pool.available = s.pool.available) ∧
    ((noteOff s id rt true).pool.countInUse = s.pool.countInUse) := by
  have hno : ∀ imm, noteOff s id rt imm = noteOffBody s id rt imm v := by
    intro imm
    unfold noteOff
    rw [h]
  obtain ⟨hcp_pool, hcp_notes, hcp_now⟩ := cancelPending_parts s id
  obtain ⟨hS3pool, hS3tasks, hS3pend, hS3now⟩ := noteOffS3_parts s id rt v
  obtain ⟨hf_av, hf_notes, hf_pend, hf_tasks, hf_now, hf_cnt⟩ :=
    noteOffRamp_fold_parts (s.cancelPending id).now (max (1/10) rt) v.partials
      (s.cancelPending id)
  have hbf_tasks : (noteOffBody s id rt false v).tasks
      = (noteOffS3 s id rt v).tasks ++ [(rt + 1/10, STask.cleanup id)] := rfl
  have hbf_pend : (noteOffBody s id rt false v).pendingCleanups
      = (noteOffS3 s id rt v).pendingCleanups ++ [id] := rfl
  have hbf_pool : (noteOffBody s id rt false v).pool = (noteOffS3 s id rt v).pool := rfl
  have hbt : noteOffBody s id rt true v = cleanupNote (noteOffS3 s id rt v) id := rfl
  obtain ⟨v3, hv3get, hv3parts⟩ := noteOffS3_getVoice s id rt v h
  have hcn : cleanupNote (noteOffS3 s id rt v) id
      = cleanupNoteBody (noteOffS3 s id rt v) id v3 := by
    unfold cleanupNote
    rw [hv3get]
  obtain ⟨hc_none, hc_tasks, hc_av, hc_cnt⟩ := cleanupNoteBody_parts (noteOffS3 s id rt v) id v3
  refine ⟨?_, ?_, ?_, ?_, ?_, ?_, ?_, ?_⟩
  · intro idx node hmem hget
    rw [hno false, hbf_pool, hS3pool]
    have hget1 : (s.cancelPending id).pool.pool.get? idx = some node := by
      rw [hcp_pool]
      exact hget
    rw [noteOffRamp_fold_get? (s.cancelPending id).now (max (1/10) rt) v.partials
      (s.cancelPending id) idx node hget1, if_pos hmem, hcp_now]
  · rw [hno false, hbf_tasks]
    exact List.mem_append_right _ (by simp)
  · rw [hno false, hbf_pend]
    exact List.mem_append_right _ (by simp)
  · rw [hno false, hbf_pool, hS3pool, hf_av, hcp_pool]
  · rw [hno true, hbt, hcn]
    exact hc_none
  · intro idx hmem
    rw [hno true, hbt, hcn, hc_tasks]
    apply List.mem_append_right
    rw [hv3parts]
    exact List.mem_map_of_mem _ hmem
  · rw [hno true, hbt, hcn, hc_av, hS3pool, hf_av, hcp_pool]
  · rw [hno true, hbt, hcn, hc_cnt, hS3pool, hf_cnt, hcp_pool]

/-- Witness for C8 (amended) on `c8State`. -/
theorem C8_noteOff_amended_witness :
    (((1 : ℚ)/2 + 1/10, STask.cleanup 1) ∈ (noteOff c8State 1 (1/2) false).tasks) ∧
    mapGet (noteOff c8State 1 (1/2) true).activeNotes 1 = none ∧
    (noteOff c8State 1 (1/2) true).pool.available = c8State.pool.available :=
  ⟨(C8_noteOff_amended c8State 1 (1/2) { c3VoiceA with partials := [1, 0] } (by decide!)).2.1,
   (C8_noteOff_amended c8State 1 (1/2) { c3VoiceA with partials := [1, 0] }
      (by decide!)).2.2.2.2.1,
   (C8_noteOff_amended c8State 1 (1/2) { c3VoiceA with partials := [1, 0] }
      (by decide!)).2.2.2.2.2.2.1⟩

/-! ### Harmonic Evolution Scheduler hysteresis (C9) -/

theorem evoPartialStep_get?_ne (m : EvoModel) (sp : Bool) (now el : ℚ) (note : Voice)
    (pool : PartialPool) (ip : ℕ × ℕ) (j : ℕ) (hne : ip.2 ≠ j) :
    (evoPartialStep m sp now el note pool ip).pool.get? j = pool.pool.get? j := by
  unfold evoPartialStep
  split
  · rfl
  · cases hg : pool.pool.get? ip.2 with
    | none => rfl
    | some nd =>
      dsimp only
      split
      · exact modifyGain_get?_ne pool ip.2 j _ hne
      · rfl

theorem evoPartialStep_get?_write (m : EvoModel) (sp : Bool) (now el : ℚ) (note : Voice)
    (pool : PartialPool) (i pidx : ℕ) (node : PartialNode)
    (hinit : i < note.initialAmplitudes.length)
    (hnode : pool.pool.get? pidx = some node) :
    (evoPartialStep m sp now el note pool (i, pidx)).pool.get? pidx
      = (if evoChangeRatio node.gain.value
            (evoClampedAmp m sp el note (note.initialAmplitudes.getD i default)) ≤ 1/20
         then some node
         else some (evoRampedNode m sp el now note i node)) := by
  have h1 : ¬ note.initialAmplitudes.length ≤ i := by omega
  unfold evoPartialStep
  dsimp only
  rw [if_neg h1, hnode]
  dsimp only
  by_cases hr : (1 : ℚ)/20 < evoChangeRatio node.gain.value
      (evoClampedAmp m sp el note (note.initialAmplitudes.getD i default))
  · rw [if_pos hr, if_neg (not_le_of_lt hr)]
    rw [modifyGain_get?_self pool pidx _ node hnode]
    unfold evoRampedNode GainParam.cancelScheduledValues GainParam.setValueAtTime
      GainParam.expRampToValueAtTime
    simp
  · rw [if_neg hr, if_pos (le_of_not_lt hr)]
    exact hnode

theorem evoPartial_fold_not_mem (m : EvoModel) (sp : Bool) (now el : ℚ) (note : Voice)
    (pidx : ℕ) :
    ∀ (pairs : List (ℕ × ℕ)) (pool : PartialPool),
      (∀ p ∈ pairs, p.2 ≠ pidx) →
      (pairs.foldl (evoPartialStep m sp now el note) pool).pool.get? pidx
        = pool.pool.get? pidx := by
  intro pairs
  induction pairs with
  | nil => intro pool hp; rfl
  | cons p ps ih =>
    intro pool hp
    rw [List.foldl_cons,
      ih (evoPartialStep m sp now el note pool p) (fun q hq => hp q (List.mem_cons_of_mem p hq)),
      evoPartialStep_get?_ne m sp now el note pool p pidx (hp p (List.mem_cons_self p ps))]

theorem enumFrom_filter_none (pidx : ℕ) :
    ∀ (l : List ℕ) (k : ℕ), pidx ∉ l →
      (l.enumFrom k).filter (fun p => p.2 == pidx) = [] := by
  intro l
  induction l with
  | nil => intro k h; rfl
  | cons a l ih =>
    intro k h
    rw [List.enumFrom_cons, List.filter_cons]
    have ha : ((k, a).2 == pidx) = false := by
      simp only [List.mem_cons, not_or] at h
      simpa using fun hc => h.1 hc.symm
    rw [ha]
    simp only [Bool.false_eq_true, if_false]
    exact ih (k + 1) (by simp only [List.mem_cons, not_or] at h; exact h.2)

theorem enumFrom_filter_single (pidx : ℕ) :
    ∀ (l : List ℕ) (k i : ℕ), l.Nodup → l.get? i = some pidx →
      (l.enumFrom k).filter (fun p => p.2 == pidx) = [(k + i, pidx)] := by
  intro l
  induction l with
  | nil => intro k i hnd h; exact absurd h (by simp)
  | cons a l ih =>
    intro k i hnd h
    obtain ⟨hna, hnd'⟩ := List.nodup_cons.mp hnd
    rw [List.enumFrom_cons, List.filter_cons]
    cases i with
    | zero =>
      have ha : a = pidx := by simpa using h
      subst ha
      have hpa : ((k, a).2 == a) = true := by simp
      rw [hpa]
      simp only [if_true]
      rw [enumFrom_filter_none a l (k + 1) hna]
      simp
    | succ i =>
      have hl : l.get? i = some pidx := by simpa using h
      have hmem : pidx ∈ l := List.get?_mem hl
      have ha : ((k, a).2 == pidx) = false := by
        simp only [beq_eq_false_iff_ne, ne_eq]
        intro hc
        exact hna (by rw [hc]; exact hmem)
      rw [ha]
      simp only [Bool.false_eq_true, if_false]
      rw [ih (k + 1) i hnd' hl]
      congr 2
      omega

theorem evoPartial_fold_owner (m : EvoModel) (sp : Bool) (now el : ℚ) (note : Voice) :
    ∀ (pairs : List (ℕ × ℕ)) (pool : PartialPool) (i pidx : ℕ) (node : PartialNode),
      pool.pool.get? pidx = some node →
      pairs.filter (fun p => p.2 == pidx) = [(i, pidx)] →
      i < note.initialAmplitudes.length →
      (pairs.foldl (evoPartialStep m sp now el note) pool).pool.get? pidx
        = (if evoChangeRatio node.gain.value
              (evoClampedAmp m sp el note (note.initialAmplitudes.getD i default)) ≤ 1/20
           then some node
           else some (evoRampedNode m sp el now note i node)) := by
  intro pairs
  induction pairs with
  | nil =>
    intro pool i pidx node hnode hfil hinit
    exact absurd hfil (by simp)
  | cons p ps ih =>
    intro pool i pidx node hnode hfil hinit
    rw [List.filter_cons] at hfil
    by_cases hp2 : (p.2 == pidx) = true
    · rw [hp2] at hfil
      simp only [if_true] at hfil
      have hpe : p = (i, pidx) := by
        have := List.head_eq_of_cons_eq hfil
        exact this
      have hps : ps.filter (fun p => p.2 == pidx) = [] := List.tail_eq_of_cons_eq hfil
      have hnone : ∀ q ∈ ps, q.2 ≠ pidx := by
        intro q hq hc
        have : q ∈ ps.filter (fun p => p.2 == pidx) :=
          List.mem_filter.mpr ⟨hq, by simpa using hc⟩
        rw [hps] at this
        exact absurd this (by simp)
      subst hpe
      rw [List.foldl_cons,
        evoPartial_fold_not_mem m sp now el note pidx ps _ hnone,
        evoPartialStep_get?_write m sp now el note pool i pidx node hinit hnode]
    · rw [Bool.not_eq_true] at hp2
      rw [hp2] at hfil
      simp only [Bool.false_eq_true, if_false] at hfil
      have hne : p.2 ≠ pidx := by simpa using hp2
      rw [List.foldl_cons]
      exact ih (evoPartialStep m sp now el note pool p) i pidx node
        ((evoPartialStep_get?_ne m sp now el note pool p pidx hne).trans hnode) hfil hinit

theorem evoNoteStep_pool (m : EvoModel) (sp : Bool) (now : ℚ) (acc : EvoAcc) (e : ℕ × Voice) :
    (evoNoteStep m sp now acc e).pool
      = (e.2.partials.enum).foldl (evoPartialStep m sp now (now - e.2.startTime) e.2)
          acc.pool := by
  unfold evoNoteStep
  dsimp only
  split <;> rfl

theorem evoNotes_fold_get? (m : EvoModel) (sp : Bool) (now : ℚ) (pidx : ℕ) :
    ∀ (notes : List (ℕ × Voice)) (acc : EvoAcc),
      (∀ e ∈ notes, pidx ∉ e.2.partials) →
      (notes.foldl (evoNoteStep m sp now) acc).pool.pool.get? pidx
        = acc.pool.pool.get? pidx := by
  intro notes
  induction notes with
  | nil => intro acc h; rfl
  | cons e notes ih =>
    intro acc h
    rw [List.foldl_cons, ih (evoNoteStep m sp now acc e)
      (fun q hq => h q (List.mem_cons_of_mem e hq))]
    rw [evoNoteStep_pool]
    apply evoPartial_fold_not_mem
    intro p hp hc
    have hsnd : p.2 ∈ e.2.partials := by
      have : p.2 ∈ e.2.partials.enum.map Prod.snd := List.mem_map_of_mem Prod.snd hp
      rwa [List.enum_map_snd] at this
    exact h e (List.mem_cons_self e notes) (hc ▸ hsnd)

/-- Claim C9: on a scheduler tick, a partial whose computed (clamped) target
amplitude differs from its current live gain by a relative change of at most
the 5 % hysteresis threshold is left completely untouched — no ramp is
issued; only when the relative change exceeds 5 % does the scheduler cancel
the pending automation, anchor `max(minAmp, current)` at now, and schedule a
200 ms exponential ramp to the clamped target.  Hypotheses: the voice owns
its partials exclusively (the at-most-one-owner invariant) and without
duplicates, and has an `initialAmplitudes` entry for the partial. -/
theorem C9_hysteresis (m : EvoModel) (sp : Bool) (s : SynthState) (id : ℕ) (v : Voice)
    (i pidx : ℕ) (node : PartialNode)
    (hmem : (id, v) ∈ s.activeNotes)
    (hdisj : DisjointOwners s.activeNotes)
    (hnodup : v.partials.Nodup)
    (hi : v.partials.get? i = some pidx)
    (hinit : i < v.initialAmplitudes.length)
    (hnode : s.pool.pool.get? pidx = some node) :
    (evoChangeRatio node.gain.value
        (evoClampedAmp m sp (s.now - v.startTime) v (v.initialAmplitudes.getD i default))
        ≤ 1/20 →
      (updateHarmonicEvolution m sp s).pool.pool.get? pidx = some node) ∧
    (1/20 < evoChangeRatio node.gain.value
        (evoClampedAmp m sp (s.now - v.startTime) v (v.initialAmplitudes.getD i default)) →
      (updateHarmonicEvolution m sp s).pool.pool.get? pidx
        = some (evoRampedNode m sp (s.now - v.startTime) s.now v i node)) := by
  have hpmem : pidx ∈ v.partials := List.get?_mem hi
  obtain ⟨l1, l2, hsplit⟩ := List.append_of_mem hmem
  have hdisj' := hsplit ▸ hdisj
  have hl1 : ∀ e ∈ l1, pidx ∉ e.2.partials := by
    intro e he hc
    have hR := (List.pairwise_append.mp hdisj').2.2 e he (id, v) (List.mem_cons_self _ _)
    exact hR pidx hc hpmem
  have hl2 : ∀ e ∈ l2, pidx ∉ e.2.partials := by
    intro e he hc
    have hp2 := (List.pairwise_append.mp hdisj').2.1
    have hR := (List.pairwise_cons.mp hp2).1 e he
    exact hR pidx hpmem hc
  have hfil : (v.partials.enum).filter (fun p => p.2 == pidx) = [(i, pidx)] := by
    have := enumFrom_filter_single pidx v.partials 0 i hnodup hi
    simpa using this
  have hmain : (updateHarmonicEvolution m sp s).pool.pool.get? pidx
      = (if evoChangeRatio node.gain.value
            (evoClampedAmp m sp (s.now - v.startTime) v (v.initialAmplitudes.getD i default))
            ≤ 1/20
         then some node
         else some (evoRampedNode m sp (s.now - v.startTime) s.now v i node)) := by
    show ((s.activeNotes.foldl (evoNoteStep m sp s.now)
        { pool := s.pool, notes := [], pendingCleanups := s.pendingCleanups,
          tasks := s.tasks }).pool.pool.get? pidx) = _
    rw [hsplit, List.foldl_append, List.foldl_cons]
    rw [evoNotes_fold_get? m sp s.now pidx l2 _ hl2]
    rw [evoNoteStep_pool]
    have facc := evoNotes_fold_get? m sp s.now pidx l1
      { pool := s.pool, notes := [], pendingCleanups := s.pendingCleanups, tasks := s.tasks }
      hl1
    exact evoPartial_fold_owner m sp s.now (s.now - v.startTime) v v.partials.enum _ i pidx
      node (facc.trans hnode) hfil hinit
  constructor
  · intro hr
    rw [hmain, if_pos hr]
  · intro hr
    rw [hmain, if_neg (not_le_of_lt hr)]

/-- Witness for C9 on `c9State` with the identity acoustic model: the target
equals the current gain (ratio 0 ≤ 5 %), so the node is untouched; with a
halving model the ratio is 50 % and the ramp is issued. -/
theorem C9_hysteresis_witness :
    (updateHarmonicEvolution constModel false c9State).pool.pool.get? 0
      = some { oscFreq := 440, filterFreq := 20000,
               gain := { value := 1/10, events := [] }, inUse := true, index := 0 } :=
  (C9_hysteresis constModel false c9State 1 c9Voice 0 0
    { oscFreq := 440, filterFreq := 20000, gain := { value := 1/10, events := [] },
      inUse := true, index := 0 }
    (by decide!) (by simp [c9State, DisjointOwners]) (by decide) (by decide!) (by decide)
    (by decide!)).1 (by decide!)

/-! ### Silent-voice admission and cleanup (C10) -/

theorem poolAcquire_nil {s : SynthState} (hav : s.pool.available = []) :
    s.poolAcquire = (none, s) := by
  unfold SynthState.poolAcquire
  rw [acquire_nil hav]

theorem stealFoldStep_none_of_ineligible (s : SynthState) (e : ℕ × Voice)
    (h : e.2.keyDown = true ∨ e.2.partials = []) :
    stealFoldStep s none e = none := by
  unfold stealFoldStep
  cases h with
  | inl hk => simp [hk]
  | inr hp => simp [hp]

theorem stealFold_none_of_no_candidate (s : SynthState) :
    ∀ (l : List (ℕ × Voice)),
      (∀ e ∈ l, e.2.keyDown = true ∨ e.2.partials = []) →
      l.foldl (stealFoldStep s) none = none := by
  intro l
  induction l with
  | nil => intro h; rfl
  | cons e l ih =>
    intro h
    rw [List.foldl_cons, stealFoldStep_none_of_ineligible s e (h e (List.mem_cons_self e l))]
    exact ih (fun q hq => h q (List.mem_cons_of_mem e hq))

theorem steal_none (s : SynthState)
    (hfold : s.activeNotes.foldl (stealFoldStep s) none = none) :
    stealVoiceFromQuietestSustainedNote s = (none, s) := by
  unfold stealVoiceFromQuietestSustainedNote
  rw [hfold]

theorem acquireLoop_exhausted (velocity : ℕ) (now : ℚ) :
    ∀ (cs : List Config) (acc : AcqAcc),
      acc.state.pool.available = [] →
      acc.state.activeNotes.foldl (stealFoldStep acc.state) none = none →
      acquireLoop velocity now cs acc = acc := by
  intro cs
  induction cs with
  | nil => intro acc _ _; rfl
  | cons c cs ih =>
    intro acc hav hfold
    rw [acquireLoop]
    split
    · exact ih acc hav hfold
    · rw [poolAcquire_nil hav]
      dsimp only
      rw [steal_none acc.state hfold]

/-- Claim C10: with the pool exhausted and no eligible steal candidate,
`noteOn` acquires nothing yet still registers a Voice with an empty partial
list under the fresh id, returns the per-note gain node handle, and bumps
`getActiveNoteCount`; on the next Evolution Scheduler tick taken at any time
`t` more than 0.5 s after the note started, the silence check fires on the
empty gain list and the voice is scheduled for cleanup (its id is pushed on
`pendingCleanups` and a 200 ms `cleanupCheck` timeout is queued). -/
theorem C10_silent_voice (m : EvoModel) (sp : Bool) (s : SynthState) (id : ℕ)
    (frequency : ℚ) (velocity : ℕ) (kd pd : Bool) (configs : List Config) (t : ℚ)
    (hexh : s.pool.available = [])
    (hnocand : ∀ e ∈ s.activeNotes, e.2.keyDown = true ∨ e.2.partials = [])
    (hfresh : s.activeNotes.any (fun e => e.1 == id) = false)
    (hnopend : s.pendingCleanups.contains id = false)
    (hkeys : ∀ e ∈ s.activeNotes, e.1 ≠ id)
    (ht : 1/2 < t - s.now) :
    (noteOn s id frequency velocity kd pd configs).1.activeNotes
        = s.activeNotes ++ [(id,
            { partials := [], gainNode := { value := 1, events := [] },
              frequency := frequency, velocity := velocity, startTime := s.now,
              keyDown := kd, pedalDown := pd, initialAmplitudes := [],
              lastUpdateTime := s.now })] ∧
    (noteOn s id frequency velocity kd pd configs).2 = { value := 1, events := [] } ∧
    getActiveNoteCount (noteOn s id frequency velocity kd pd configs).1
        = getActiveNoteCount s + 1 ∧
    (id ∈ (updateHarmonicEvolution m sp
        { (noteOn s id frequency velocity kd pd configs).1 with now := t }).pendingCleanups ∧
     (1/5, STask.cleanupCheck id) ∈ (updateHarmonicEvolution m sp
        { (noteOn s id frequency velocity kd pd configs).1 with now := t }).tasks) := by
  have hfold : s.activeNotes.foldl (stealFoldStep s) none = none :=
    stealFold_none_of_no_candidate s s.activeNotes hnocand
  have hloop : ∀ cs, acquireLoop velocity s.now cs
      { state := s, partials := [], initialAmplitudes := [] }
      = { state := s, partials := [], initialAmplitudes := [] } :=
    fun cs => acquireLoop_exhausted velocity s.now cs _ hexh hfold
  have hnoteOn : noteOn s id frequency velocity kd pd configs
      = ({ s with activeNotes := s.activeNotes ++ [(id,
            { partials := [], gainNode := { value := 1, events := [] },
              frequency := frequency, velocity := velocity, startTime := s.now,
              keyDown := kd, pedalDown := pd, initialAmplitudes := [],
              lastUpdateTime := s.now })] },
          { value := 1, events := [] }) := by
    unfold noteOn
    dsimp only
    rw [hloop]
    dsimp only
    unfold mapSet
    rw [hfresh]
    simp only [Bool.false_eq_true, if_false]
  rw [hnoteOn]
  refine ⟨rfl, rfl, by simp [getActiveNoteCount], ?_⟩
  set voice : Voice :=
    { partials := [], gainNode := { value := 1, events := [] },
      frequency := frequency, velocity := velocity, startTime := s.now,
      keyDown := kd, pedalDown := pd, initialAmplitudes := [],
      lastUpdateTime := s.now } with hvoice
  show id ∈ (updateHarmonicEvolution m sp
      { s with activeNotes := s.activeNotes ++ [(id, voice)], now := t }).pendingCleanups
    ∧ (1/5, STask.cleanupCheck id) ∈ (updateHarmonicEvolution m sp
      { s with activeNotes := s.activeNotes ++ [(id, voice)], now := t }).tasks
  have hstep : ∀ (acc : EvoAcc), acc.pendingCleanups.contains id = false →
      (evoNoteStep m sp t acc (id, voice)).pendingCleanups
          = acc.pendingCleanups ++ [id]
        ∧ (evoNoteStep m sp t acc (id, voice)).tasks
          = acc.tasks ++ [(1/5, STask.cleanupCheck id)] := by
    intro acc hacc
    rw [hvoice]
    unfold evoNoteStep
    simp only [List.enum_nil, List.foldl_nil, List.map_nil, List.all_nil, Bool.true_and]
    rw [if_pos (by simp [hacc, ht]; exact ⟨by linarith, by simpa using hacc⟩)]
    exact ⟨rfl, rfl⟩
  have hpending : ∀ (l : List (ℕ × Voice)) (acc : EvoAcc),
      (∀ e ∈ l, e.1 ≠ id) → acc.pendingCleanups.contains id = false →
      (l.foldl (evoNoteStep m sp t) acc).pendingCleanups.contains id = false := by
    intro l
    induction l with
    | nil => intro acc _ hacc; exact hacc
    | cons e l ih =>
      intro acc hl hacc
      rw [List.foldl_cons]
      refine ih _ (fun q hq => hl q (List.mem_cons_of_mem e hq)) ?_
      unfold evoNoteStep
      dsimp only
      split
      · have hnm : id ∉ acc.pendingCleanups ++ [e.1] := by
          simp only [List.mem_append, List.mem_singleton, not_or]
          exact ⟨by simpa using hacc, fun hc => (hl e (List.mem_cons_self e l)) hc.symm⟩
        simpa using hnm
      · exact hacc
  unfold updateHarmonicEvolution
  dsimp only
  rw [List.foldl_append, List.foldl_cons, List.foldl_nil]
  have hPacc := hpending s.activeNotes
    { pool := s.pool, notes := [], pendingCleanups := s.pendingCleanups, tasks := s.tasks }
    hkeys hnopend
  obtain ⟨hp, htk⟩ := hstep _ hPacc
  rw [hp, htk]
  exact ⟨by simp, by simp⟩

/-- Witness for C10 on `c10State`: the only voice is physically held
(`keyDown`), the pool's free list is empty, and the fresh id 2 is admitted
as an empty voice that the next tick (at t = 1 > 0.5) schedules for cleanup. -/
theorem C10_silent_voice_witness :
    (noteOn c10State 2 330 90 true false [cfgA]).1.activeNotes
        = c10State.activeNotes ++ [(2,
            { partials := [], gainNode := { value := 1, events := [] },
              frequency := 330, velocity := 90, startTime := c10State.now,
              keyDown := true, pedalDown := false, initialAmplitudes := [],
              lastUpdateTime := c10State.now })] ∧
    getActiveNoteCount (noteOn c10State 2 330 90 true false [cfgA]).1 = 2 ∧
    2 ∈ (updateHarmonicEvolution constModel false
        { (noteOn c10State 2 330 90 true false [cfgA]).1 with now := 1 }).pendingCleanups := by
  have h := C10_silent_voice constModel false c10State 2 330 90 true false [cfgA] 1
    (by decide!) (by decide!) (by decide!) (by decide) (by decide!) (by decide!)
  exact ⟨h.1, by rw [h.2.2.1]; rfl, h.2.2.2.1⟩

end AdditiveSynth
